import Mathlib

/-!
# Verification of the openapi-proto schema compiler core

Shallow embedding of the Go sources of duh-rpc/openapi-proto.go
(`convert.go`, `internal/builder.go`, `internal/mapper.go`,
`internal/naming.go`, `internal/parser/parser.go`) together with proofs
about the embedded definitions.

Conventions:
- Go strings are modelled as Lean `String`s; character-level processing
  mirrors Go's `for i, r := range s` rune iteration.  Where Go uses byte
  indices (`i == len(name)-1` in `SanitizeFieldName`) the byte position is
  computed with `Char.utf8Size`.
- Go's `unicode.IsUpper`, `unicode.ToLower`, `strings.ToUpper`, and
  `strings.EqualFold` are modelled on the ASCII range, which covers every
  identifier this converter handles.
- Fallible Go functions returning `(T, error)` become `Except String T`.
- Mutable state (`*Context`, `*NameTracker`, `*DependencyGraph`,
  `*ProtoMessage` parents) is threaded explicitly.
- Recursion through the schema graph is bounded by an explicit `fuel`
  argument; with enough fuel the functions compute exactly what the Go
  code computes.
-/

namespace OpenapiProto

/-! ## ASCII character helpers (models of Go `unicode` / `strings` usage) -/

/-- Model of `unicode.IsUpper` restricted to ASCII. -/
def isUpperC (c : Char) : Bool :=
  'A' ≤ c && c ≤ 'Z'

/-- Model of `unicode.IsLower` restricted to ASCII. -/
def isLowerC (c : Char) : Bool :=
  'a' ≤ c && c ≤ 'z'

/-- Model of `unicode.ToLower` restricted to ASCII. -/
def toLowerC (c : Char) : Char :=
  if isUpperC c then Char.ofNat (c.toNat + 32) else c

/-- Model of `unicode.ToUpper` restricted to ASCII. -/
def toUpperC (c : Char) : Char :=
  if isLowerC c then Char.ofNat (c.toNat - 32) else c

/-- Model of `strings.ToUpper` restricted to ASCII. -/
def strToUpper (s : String) : String :=
  String.mk (s.toList.map toUpperC)

/-- ASCII model of Go `strings.EqualFold` on single characters. -/
def foldEqC (a b : Char) : Bool :=
  toLowerC a = toLowerC b

/-- ASCII model of `strings.EqualFold`. -/
def eqFold (a b : String) : Bool :=
  a.toList.length = b.toList.length &&
    (List.zip a.toList b.toList).all fun p => foldEqC p.1 p.2

/-! ## Naming engine (`internal/naming.go`) -/

/-- Core loop of `ToSnakeCase`: each uppercase rune becomes an underscore
(except at the start) followed by its lowercase form. -/
def snakeCore : Bool → List Char → List Char
  | _, [] => []
  | isFirst, c :: rest =>
    if isUpperC c then
      (if isFirst then [toLowerC c] else ['_', toLowerC c]) ++ snakeCore false rest
    else
      c :: snakeCore false rest

/-- `ToSnakeCase` from `internal/naming.go`. -/
def ToSnakeCase (s : String) : String :=
  if s.isEmpty then "" else String.mk (snakeCore true s.toList)

/-- First loop of `ToPascalCase`: scan for an all-caps string, recording
whether an underscore was seen before the scan stopped (Go breaks at the
first lowercase rune). Returns `(isAllCaps, hasUnderscore)`. -/
def capsScan : List Char → Bool → Bool × Bool
  | [], hu => (true, hu)
  | c :: rest, hu =>
    if c = '_' then capsScan rest true
    else if isLowerC c then (false, hu)
    else capsScan rest hu

/-- Second loop of `ToPascalCase`: capitalize after underscores or at the
start; otherwise lowercase the rune only when the whole input was
underscore-free all-caps. -/
def pascalCore (lowerRest : Bool) : Bool → List Char → List Char
  | _, [] => []
  | capNext, c :: rest =>
    if c = '_' then pascalCore lowerRest true rest
    else if capNext then toUpperC c :: pascalCore lowerRest false rest
    else (if lowerRest then toLowerC c else c) :: pascalCore lowerRest false rest

/-- `ToPascalCase` from `internal/naming.go`. -/
def ToPascalCase (s : String) : String :=
  if s.isEmpty then "" else
    let scan := capsScan s.toList false
    String.mk (pascalCore (scan.1 && !scan.2) true s.toList)

/-- `ToEnumValueName` from `internal/naming.go`:
`UPPER(snake(enumName)) ++ "_" ++ UPPER(snake(value))` with dashes
replaced by underscores. -/
def ToEnumValueName (enumName value : String) : String :=
  let upperEnum := strToUpper (ToSnakeCase enumName)
  let upperValue :=
    String.mk ((strToUpper (ToSnakeCase value)).toList.map
      fun c => if c = '-' then '_' else c)
  upperEnum ++ "_" ++ upperValue

/-- `isValidProtoFieldChar` from `internal/naming.go`. -/
def isValidProtoFieldChar (c : Char) : Bool :=
  ('a' ≤ c && c ≤ 'z') || ('A' ≤ c && c ≤ 'Z') || ('0' ≤ c && c ≤ '9') || c = '_'

/-- ASCII letter test used for the first-character check of
`SanitizeFieldName` (the Go code reads the first byte; for a multi-byte
rune that byte is ≥ 0x80 and hence fails the letter test exactly like the
rune itself does). -/
def isAsciiLetter (c : Char) : Bool :=
  ('a' ≤ c && c ≤ 'z') || ('A' ≤ c && c ≤ 'Z')

/-- Loop of `SanitizeFieldName`. `i` is the byte index of the current
rune, `total` the byte length of the whole input, `lastWritten` the last
rune written to the builder, `acc` the builder contents.  When the rune
starting at byte `total - 1` (necessarily the last rune, and only when it
is a single byte) is invalid and the builder ends in an underscore, the Go
code returns early with that underscore trimmed.  `sanStep` is the body
handling one rune: write it when valid, else write a single underscore
unless the builder already ends in one. -/
def sanStep (lastWritten : Char) (acc : List Char) (r : Char) :
    List Char × Char :=
  if isValidProtoFieldChar r then (acc ++ [r], r)
  else if lastWritten ≠ '_' then (acc ++ ['_'], '_')
  else (acc, lastWritten)

/-- The rune loop of `SanitizeFieldName` (see `sanStep`). -/
def sanLoop : List Char → Nat → Nat → Char → List Char → List Char
  | [], _, _, _, acc => acc
  | r :: rest, i, total, lastWritten, acc =>
    let step := sanStep lastWritten acc r
    if i = total - 1 && !isValidProtoFieldChar r && step.2 = '_' then
      if step.1.getLast? = some '_' then step.1.dropLast else step.1
    else
      sanLoop rest (i + r.utf8Size) total step.2 step.1

/-- `SanitizeFieldName` from `internal/naming.go` (error messages carry
the offending input in Go; here the fixed message prefix is kept). -/
def SanitizeFieldName (name : String) : Except String String :=
  match name.toList with
  | [] => .error "field name cannot be empty"
  | c0 :: _ =>
    if isAsciiLetter c0 then
      let cs := name.toList
      let total := cs.foldl (fun n c => n + c.utf8Size) 0
      let out := sanLoop cs 0 total (Char.ofNat 0) []
      if out.isEmpty then .error "field name contains no valid characters"
      else .ok (String.mk out)
    else if '0' ≤ c0 && c0 ≤ '9' then
      .error "field name must start with a letter"
    else if c0 = '_' then
      .error "field name cannot start with underscore"
    else
      .error "field name must start with a letter"

/-- `NameTracker` from `internal/naming.go`; the Go map is modelled as an
association list (lookup and in-place update, insertion order kept). -/
structure NameTracker where
  used : List (String × Nat)
deriving Repr, DecidableEq

/-- Lookup in the tracker map. -/
def trackLookup : List (String × Nat) → String → Option Nat
  | [], _ => none
  | (k, v) :: rest, n => if k = n then some v else trackLookup rest n

/-- Update (or insert) a count in the tracker map. -/
def trackSet : List (String × Nat) → String → Nat → List (String × Nat)
  | [], n, c => [(n, c)]
  | (k, v) :: rest, n, c =>
    if k = n then (n, c) :: rest else (k, v) :: trackSet rest n c

/-- Fresh tracker (`NewNameTracker`). -/
def NameTracker.new : NameTracker := ⟨[]⟩

/-- `NameTracker.UniqueName`: first use returns the candidate; repeat use
returns `candidate_<count+1>`. -/
def NameTracker.UniqueName (nt : NameTracker) (name : String) :
    String × NameTracker :=
  match trackLookup nt.used name with
  | none => (name, ⟨trackSet nt.used name 1⟩)
  | some count =>
      (name ++ "_" ++ toString (count + 1), ⟨trackSet nt.used name (count + 1)⟩)

/-- Sequential application of `UniqueName` to a list of candidates
(mirrors successive calls against one tracker instance). -/
def uniqueNames (nt : NameTracker) : List String → List String × NameTracker
  | [] => ([], nt)
  | n :: rest =>
    let r := nt.UniqueName n
    let r' := uniqueNames r.2 rest
    (r.1 :: r'.1, r'.2)

/-! ## Output IR (`internal/builder.go`, current version) -/

/-- `ProtoField` from `internal/builder.go`. -/
structure ProtoField where
  name : String
  type : String
  number : Nat
  jsonName : String
  descr : String
  repeated : Bool
deriving Repr, DecidableEq

/-- `ProtoEnumValue` from `internal/builder.go`. -/
structure ProtoEnumValue where
  name : String
  number : Nat
deriving Repr, DecidableEq

/-- `ProtoEnum` from `internal/builder.go`. -/
structure ProtoEnum where
  name : String
  descr : String
  values : List ProtoEnumValue
deriving Repr, DecidableEq

/-- `ProtoMessage` from `internal/builder.go` (recursive through the list
of nested messages, hence an inductive type). -/
inductive ProtoMessage where
  | mk (name : String) (descr : String) (fields : List ProtoField)
       (nested : List ProtoMessage) (originalSchema : String)
deriving Repr

/-- Emitted name of a message. -/
def ProtoMessage.name : ProtoMessage → String
  | .mk n _ _ _ _ => n

/-- Description of a message. -/
def ProtoMessage.descr : ProtoMessage → String
  | .mk _ d _ _ _ => d

/-- Ordered fields of a message. -/
def ProtoMessage.fields : ProtoMessage → List ProtoField
  | .mk _ _ f _ _ => f

/-- Nested messages of a message. -/
def ProtoMessage.nested : ProtoMessage → List ProtoMessage
  | .mk _ _ _ ns _ => ns

/-- The originating schema name (kept for classification lookups). -/
def ProtoMessage.originalSchema : ProtoMessage → String
  | .mk _ _ _ _ o => o

/-- Append a field (Go `msg.Fields = append(msg.Fields, field)`). -/
def ProtoMessage.pushField : ProtoMessage → ProtoField → ProtoMessage
  | .mk n d f ns o, fld => .mk n d (f ++ [fld]) ns o

/-- Append a nested message (Go `parentMsg.Nested = append(...)`). -/
def ProtoMessage.pushNested : ProtoMessage → ProtoMessage → ProtoMessage
  | .mk n d f ns o, m => .mk n d f (ns ++ [m]) o

/-- An entry of `Context.Definitions` (`[]interface{}` holding messages
and enums interleaved in processing order). -/
inductive Definition where
  | msg (m : ProtoMessage)
  | enum (e : ProtoEnum)
deriving Repr

/-- `Context` from `internal/builder.go` (current version). -/
structure Context where
  tracker : NameTracker
  messages : List ProtoMessage
  enums : List ProtoEnum
  defs : List Definition
  usesTimestamp : Bool

/-- `NewContext`. -/
def Context.new : Context :=
  ⟨NameTracker.new, [], [], [], false⟩

/-! ## Input schema model (`internal/parser/parser.go` plus the
capabilities of `libopenapi`'s `base.SchemaProxy` / `base.Schema` that the
converter reads) -/

mutual
/-- Model of `*base.SchemaProxy`: whether it is a `$ref`, the reference
string, the resolved schema (`Schema()`, `none` when resolution failed)
and the build error (`GetBuildError()`). -/
inductive SchemaProxy where
  | mk (isRef : Bool) (ref : String) (schema : Option Schema)
       (buildErr : Option String)

/-- Model of `*base.Schema`: the fields the converter reads. `props`
models `Properties` (`none` for a nil map, ordered pairs otherwise),
`items` models `Items`/`Items.A` (`none` when either is nil), `enumVals`
models the `Enum` yaml nodes (`none` for a nil node, otherwise the node's
string `Value`), and `discriminator` models
`Discriminator.PropertyName` (`none` for a nil discriminator). -/
inductive Schema where
  | mk (types : List String) (format : String) (descr : String)
       (props : Option (List (String × SchemaProxy)))
       (items : Option SchemaProxy)
       (enumVals : List (Option String))
       (oneOf : List SchemaProxy) (allOf : List SchemaProxy)
       (anyOf : List SchemaProxy) (hasNot : Bool)
       (discriminator : Option String)
end

/-- `proxy.IsReference()`. -/
def SchemaProxy.isRef : SchemaProxy → Bool
  | .mk r _ _ _ => r

/-- `proxy.GetReference()`. -/
def SchemaProxy.ref : SchemaProxy → String
  | .mk _ r _ _ => r

/-- `proxy.Schema()`. -/
def SchemaProxy.schema : SchemaProxy → Option Schema
  | .mk _ _ s _ => s

/-- `proxy.GetBuildError()`. -/
def SchemaProxy.buildErr : SchemaProxy → Option String
  | .mk _ _ _ e => e

/-- `schema.Type`. -/
def Schema.types : Schema → List String
  | .mk t _ _ _ _ _ _ _ _ _ _ => t

/-- `schema.Format`. -/
def Schema.format : Schema → String
  | .mk _ f _ _ _ _ _ _ _ _ _ => f

/-- `schema.Description`. -/
def Schema.descr : Schema → String
  | .mk _ _ d _ _ _ _ _ _ _ _ => d

/-- `schema.Properties` (ordered, `FromOldest`). -/
def Schema.props : Schema → Option (List (String × SchemaProxy))
  | .mk _ _ _ p _ _ _ _ _ _ _ => p

/-- `schema.Items.A` (when both are non-nil). -/
def Schema.items : Schema → Option SchemaProxy
  | .mk _ _ _ _ i _ _ _ _ _ _ => i

/-- `schema.Enum` node values. -/
def Schema.enumVals : Schema → List (Option String)
  | .mk _ _ _ _ _ e _ _ _ _ _ => e

/-- `schema.OneOf`. -/
def Schema.oneOf : Schema → List SchemaProxy
  | .mk _ _ _ _ _ _ o _ _ _ _ => o

/-- `schema.AllOf`. -/
def Schema.allOf : Schema → List SchemaProxy
  | .mk _ _ _ _ _ _ _ a _ _ _ => a

/-- `schema.AnyOf`. -/
def Schema.anyOf : Schema → List SchemaProxy
  | .mk _ _ _ _ _ _ _ _ a _ _ => a

/-- `schema.Not != nil`. -/
def Schema.hasNot : Schema → Bool
  | .mk _ _ _ _ _ _ _ _ _ n _ => n

/-- `schema.Discriminator.PropertyName` (when the discriminator is
non-nil). -/
def Schema.discriminator : Schema → Option String
  | .mk _ _ _ _ _ _ _ _ _ _ d => d

/-- `SchemaEntry` from `internal/parser/parser.go`. -/
structure SchemaEntry where
  name : String
  proxy : SchemaProxy

/-! ## Small string utilities used by the builder / mapper -/

/-- Model of Go `strings.Split(s, "/")` (on char lists). -/
def splitSlash : List Char → List (List Char)
  | [] => [[]]
  | c :: rest =>
    let r := splitSlash rest
    if c = '/' then [] :: r
    else
      match r with
      | h :: t => (c :: h) :: t
      | [] => [[c]]

/-- Last segment of a `/`-separated reference path (Go takes
`parts[len(parts)-1]` after checking `len(parts) > 0`). -/
def lastSegment (s : String) : String :=
  match (splitSlash s.toList).getLast? with
  | some seg => String.mk seg
  | none => ""

/-- `contains` from `internal/builder.go` (`strings.EqualFold` match). -/
def containsFold (slice : List String) (item : String) : Bool :=
  slice.any fun s => eqFold s item

/-- `isEnumSchema` from `internal/builder.go`. -/
def isEnumSchema (s : Schema) : Bool :=
  !s.enumVals.isEmpty

/-- `extractReferenceName` from `internal/mapper.go`. -/
def extractReferenceName (ref : String) : Except String String :=
  if ref = "" then .error "reference string is empty"
  else
    let name := lastSegment ref
    if name = "" then .error "reference has empty name segment"
    else .ok name

/-! ## Scalar type mapper (`internal/mapper.go`) -/

/-- `MapScalarType` from `internal/mapper.go`: the fixed
`(type, format)` table. -/
def MapScalarType (typ format : String) : Except String String :=
  if typ = "integer" then
    if format = "int64" then .ok "int64" else .ok "int32"
  else if typ = "number" then
    if format = "float" then .ok "float" else .ok "double"
  else if typ = "string" then
    if format = "byte" || format = "binary" then .ok "bytes" else .ok "string"
  else if typ = "boolean" then
    .ok "bool"
  else
    .error ("unsupported type: " ++ typ)

/-! ## Error helpers (Go error wrapping; the Go messages quote names in
single quotes, which is dropped uniformly here, both in the messages and
in the `strings.Contains` re-wrap checks) -/

/-- `SchemaError` from the internal errors file. -/
def SchemaError (schemaName message : String) : String :=
  "schema " ++ schemaName ++ ": " ++ message

/-- `PropertyError` from the internal errors file. -/
def PropertyError (schemaName propertyName message : String) : String :=
  "schema " ++ schemaName ++ ": property " ++ propertyName ++ " " ++ message

/-- `UnsupportedSchemaError` from the internal errors file. -/
def UnsupportedSchemaError (schemaName feature : String) : String :=
  "schema " ++ schemaName ++ ": uses " ++ feature ++ " which is not supported"

/-- Prefix test on char lists (helper for the substring test below). -/
def startsWithChars : List Char → List Char → Bool
  | [], _ => true
  | _ :: _, [] => false
  | a :: as, b :: bs => a = b && startsWithChars as bs

/-- Substring test on char lists (model of Go `strings.Contains`). -/
def hasInfixChars (pat : List Char) : List Char → Bool
  | [] => pat.isEmpty
  | c :: rest => startsWithChars pat (c :: rest) || hasInfixChars pat rest

/-- Model of `strings.Contains(err, "property '<name>'")` used to decide
whether an error already carries the property context. -/
def errMentionsProp (err prop : String) : Bool :=
  hasInfixChars ("property " ++ prop).toList err.toList

/-- `validateTopLevelSchema` from `internal/builder.go` (current
version, including the oneOf validity rules). -/
def validateTopLevelSchema (schema : Schema) (schemaName : String) :
    Except String Unit :=
  if !schema.allOf.isEmpty then
    .error (UnsupportedSchemaError schemaName "allOf")
  else if !schema.anyOf.isEmpty then
    .error (UnsupportedSchemaError schemaName "anyOf")
  else if !schema.oneOf.isEmpty then
    if schema.oneOf.length < 2 then
      .error ("schema " ++ schemaName ++ ": oneOf must have at least 2 variants")
    else if schema.discriminator = none || schema.discriminator = some "" then
      .error ("schema " ++ schemaName ++ ": oneOf requires discriminator")
    else
      match schema.oneOf.findIdx? (fun v => !v.isRef) with
      | some i =>
          .error ("schema " ++ schemaName ++ ": oneOf variant " ++ toString i ++
            " must use $ref, inline schemas not supported")
      | none => .ok ()
  else if schema.hasNot then
    .error (UnsupportedSchemaError schemaName "not")
  else
    .ok ()

/-! ## Enum builder (`buildEnum` in `internal/builder.go`) -/

/-- `buildEnum`: hoists a schema with enum literals to a `ProtoEnum` with
the synthetic `UNSPECIFIED = 0` first value and literal values numbered
from 1 in source order. -/
def buildEnum (name : String) (proxy : SchemaProxy) (ctx : Context) :
    Except String (ProtoEnum × Context) :=
  match proxy.schema with
  | none =>
    match proxy.buildErr with
    | some e => .error (SchemaError name ("failed to resolve schema: " ++ e))
    | none => .error (SchemaError name "schema is nil")
  | some schema =>
    let r := ctx.tracker.UniqueName (ToPascalCase name)
    let enumName := r.1
    let unspecified : ProtoEnumValue :=
      ⟨strToUpper (ToSnakeCase enumName) ++ "_UNSPECIFIED", 0⟩
    let vals := schema.enumVals.enum.map fun p =>
      ProtoEnumValue.mk (ToEnumValueName enumName (p.2.getD "")) (p.1 + 1)
    let e : ProtoEnum := ⟨enumName, schema.descr, unspecified :: vals⟩
    .ok (e, { ctx with
                tracker := r.2
                enums := ctx.enums ++ [e]
                defs := ctx.defs ++ [.enum e] })

/-! ## Type mapper and nested-message builder
(`internal/mapper.go` `ProtoType` / `ResolveArrayItemType` and
`internal/builder.go` `buildNestedMessage`, mutually recursive; the
recursion is bounded by an explicit fuel argument, each recursive call
consuming one unit) -/

mutual

/-- `ProtoType` from `internal/mapper.go`: reference, array, inline
object, inline enum, then scalar, in that priority order. Returns the
field type, the repeated flag, and the updated context / parent. -/
def protoType : Nat → Schema → String → SchemaProxy → Context →
    Option ProtoMessage →
    Except String (String × Bool × Context × Option ProtoMessage)
  | 0, _, _, _, _, _ => .error "recursion limit exceeded"
  | fuel + 1, schema, propertyName, propProxy, ctx, parent =>
    if propProxy.isRef then
      match propProxy.schema with
      | none =>
        match propProxy.buildErr with
        | some e =>
            .error ("property " ++ propertyName ++
              " references external file or unresolvable reference: " ++ e)
        | none =>
            .error ("property " ++ propertyName ++ " has unresolved reference")
      | some _ =>
        match extractReferenceName propProxy.ref with
        | .error e => .error ("property " ++ propertyName ++ ": " ++ e)
        | .ok typeName => .ok (typeName, false, ctx, parent)
    else if !schema.types.isEmpty && containsFold schema.types "array" then
      match resolveArrayItemType fuel schema propertyName propProxy ctx parent with
      | .error e => .error e
      | .ok (itemType, ctx', parent') => .ok (itemType, true, ctx', parent')
    else if !schema.types.isEmpty && containsFold schema.types "object" then
      match buildNestedMessage fuel propertyName propProxy ctx parent with
      | .error e => .error e
      | .ok (nestedMsg, ctx', parent') => .ok (nestedMsg.name, false, ctx', parent')
    else if isEnumSchema schema then
      let enumName := ToPascalCase propertyName
      match buildEnum enumName propProxy ctx with
      | .error e => .error e
      | .ok (_, ctx') => .ok (enumName, false, ctx', parent)
    else if schema.types.isEmpty then
      .error "property must have type or $ref"
    else if schema.types.length > 1 then
      .error "multi-type properties not supported"
    else
      match MapScalarType (schema.types.headI) schema.format with
      | .error e => .error e
      | .ok scalarType => .ok (scalarType, false, ctx, parent)

/-- `ResolveArrayItemType` from `internal/mapper.go`. -/
def resolveArrayItemType : Nat → Schema → String → SchemaProxy → Context →
    Option ProtoMessage →
    Except String (String × Context × Option ProtoMessage)
  | 0, _, _, _, _, _ => .error "recursion limit exceeded"
  | fuel + 1, schema, propertyName, _propProxy, ctx, parent =>
    match schema.items with
    | none => .error "array must have items defined"
    | some itemsProxy =>
      match itemsProxy.schema with
      | none =>
        match itemsProxy.buildErr with
        | some e => .error ("failed to resolve array items: " ++ e)
        | none => .error "array items schema is nil"
      | some itemsSchema =>
        if !itemsSchema.types.isEmpty && containsFold itemsSchema.types "array" then
          .error "nested arrays not supported"
        else if itemsProxy.isRef then
          if itemsProxy.ref ≠ "" then
            .ok (lastSegment itemsProxy.ref, ctx, parent)
          else
            .error "invalid reference format"
        else if isEnumSchema itemsSchema then
          if propertyName.endsWith "es" then
            .error ("cannot derive enum name from plural array property " ++
              propertyName ++ "; use singular form or $ref")
          else if propertyName.endsWith "s" then
            .error ("cannot derive enum name from plural array property " ++
              propertyName ++ "; use singular form or $ref")
          else
            let enumName := ToPascalCase propertyName
            match buildEnum enumName itemsProxy ctx with
            | .error e => .error e
            | .ok (_, ctx') => .ok (enumName, ctx', parent)
        else if !itemsSchema.types.isEmpty && containsFold itemsSchema.types "object" then
          if propertyName.endsWith "es" then
            .error ("cannot derive message name from plural array property " ++
              propertyName ++ "; use singular form or $ref")
          else if propertyName.endsWith "s" then
            .error ("cannot derive message name from plural array property " ++
              propertyName ++ "; use singular form or $ref")
          else
            match buildNestedMessage fuel propertyName itemsProxy ctx parent with
            | .error e => .error e
            | .ok (nestedMsg, ctx', parent') => .ok (nestedMsg.name, ctx', parent')
        else if itemsSchema.types.isEmpty then
          .error "array items must have a type"
        else
          match MapScalarType itemsSchema.types.headI itemsSchema.format with
          | .error e => .error e
          | .ok t => .ok (t, ctx, parent)

/-- `buildNestedMessage` from `internal/builder.go` (current version):
builds a nested message from an inline object property, appending it to
the parent's nested list. -/
def buildNestedMessage : Nat → String → SchemaProxy → Context →
    Option ProtoMessage →
    Except String (ProtoMessage × Context × Option ProtoMessage)
  | 0, _, _, _, _ => .error "recursion limit exceeded"
  | fuel + 1, propertyName, proxy, ctx, parent =>
    match proxy.schema with
    | none =>
      match proxy.buildErr with
      | some e => .error ("failed to resolve nested object: " ++ e)
      | none => .error "nested object schema is nil"
    | some schema =>
      if propertyName.endsWith "es" then
        .error ("cannot derive message name from property " ++ propertyName ++
          "; use singular form or $ref")
      else if propertyName.endsWith "s" then
        .error ("cannot derive message name from property " ++ propertyName ++
          "; use singular form or $ref")
      else
        let r := ctx.tracker.UniqueName (ToPascalCase propertyName)
        let msg : ProtoMessage := .mk r.1 schema.descr [] [] propertyName
        let ctx1 : Context := { ctx with tracker := r.2 }
        match buildFields fuel (schema.props.getD []) NameTracker.new 1 msg ctx1 with
        | .error e => .error e
        | .ok (msg', ctx') =>
          let parent' :=
            match parent with
            | some p => some (p.pushNested msg')
            | none => none
          .ok (msg', ctx', parent')

/-- Property loop shared by `buildNestedMessage` (the loop body of the Go
`for propName, propProxy := range schema.Properties.FromOldest()`). -/
def buildFields : Nat → List (String × SchemaProxy) → NameTracker → Nat →
    ProtoMessage → Context → Except String (ProtoMessage × Context)
  | _, [], _, _, msg, ctx => .ok (msg, ctx)
  | 0, _ :: _, _, _, _, _ => .error "recursion limit exceeded"
  | fuel + 1, (propName, propProxy) :: rest, fieldTracker, fieldNumber, msg, ctx =>
    match propProxy.schema with
    | none => .error ("property " ++ propName ++ ": has nil schema")
    | some propSchema =>
      match SanitizeFieldName propName with
      | .error e => .error ("property " ++ propName ++ ": " ++ e)
      | .ok sanitizedName =>
        let tr := fieldTracker.UniqueName sanitizedName
        match protoType fuel propSchema propName propProxy ctx (some msg) with
        | .error e =>
          if errMentionsProp e propName then .error e
          else .error ("property " ++ propName ++ ": " ++ e)
        | .ok (protoTypeName, repeated, ctx', parentOpt) =>
          let msg1 := parentOpt.getD msg
          let fieldDescription :=
            if !propSchema.types.isEmpty &&
                (containsFold propSchema.types "object" || isEnumSchema propSchema) then
              ""
            else propSchema.descr
          let field : ProtoField :=
            ⟨tr.1, protoTypeName, fieldNumber, propName, fieldDescription, repeated⟩
          buildFields fuel rest tr.2 (fieldNumber + 1) (msg1.pushField field) ctx'

end

/-! ## Dependency graph and native-struct classification

Modelled from the spec: the repository's `DependencyGraph` implementation
(`AddSchema`, `AddDependency`, `MarkUnion`, `ComputeTransitiveClosure`)
is called from `convert.go` and `internal/builder.go` but its defining
file is not among the available sources.  The model follows spec section
4.1: nodes with outbound edges, a native-struct marking seeded by
discriminated unions and their variants, and a fixpoint closure marking
every schema with a (direct or transitive) reference to a marked schema.
The human-readable reason strings of the spec are not modelled; the
classification itself is. -/

/-- Modelled from the spec: graph node set, directed dependency edges
`(from, to)`, and the set of schemas marked as requiring native-struct
output. -/
structure DependencyGraph where
  nodes : List String
  edges : List (String × String)
  marked : Finset String

/-- Modelled from the spec: `NewDependencyGraph()`. -/
def DependencyGraph.new : DependencyGraph := ⟨[], [], ∅⟩

/-- Modelled from the spec: `AddSchema(name, node)` registers a graph
node (the Go call site discards no information the closure uses). -/
def DependencyGraph.AddSchema (g : DependencyGraph) (name : String) :
    DependencyGraph :=
  { g with nodes := g.nodes ++ [name] }

/-- Modelled from the spec: `AddDependency(from, to)` records that
schema `from` structurally contains a reference to schema `to`. -/
def DependencyGraph.AddDependency (g : DependencyGraph) (src dst : String) :
    DependencyGraph :=
  { g with edges := g.edges ++ [(src, dst)] }

/-- Modelled from the spec: `MarkUnion(name, reason, variantNames)` marks
the oneOf schema itself and each of its variants as requiring
native-struct output. -/
def DependencyGraph.MarkUnion (g : DependencyGraph) (name : String)
    (variantNames : List String) : DependencyGraph :=
  { g with marked := (insert name g.marked) ∪ variantNames.toFinset }

/-- Modelled from the spec: one full scan of `ComputeClosure`'s fixpoint
iteration — for every edge whose target is marked, mark the source. -/
def closureStep (edges : List (String × String)) (m : Finset String) :
    Finset String :=
  edges.foldl (fun acc e => if e.2 ∈ m then insert e.1 acc else acc) m

/-- All names the closure can ever mark: the seeds plus edge sources. -/
def closureUniverse (g : DependencyGraph) : Finset String :=
  g.marked ∪ (g.edges.map Prod.fst).toFinset

/-- Modelled from the spec: the fixpoint of repeated full scans.  Each
non-stable scan adds at least one name out of `closureUniverse`, so
iterating `(closureUniverse g).card` times reaches the fixpoint. -/
def closureFix (g : DependencyGraph) : Finset String :=
  (closureStep g.edges)^[(closureUniverse g).card] g.marked

/-- Modelled from the spec: `ComputeTransitiveClosure()` returns the
native-struct (Go) names and the structured-message (proto) names; every
unmarked schema defaults to structured-message output. -/
def DependencyGraph.ComputeTransitiveClosure (g : DependencyGraph) :
    Finset String × Finset String :=
  (closureFix g, g.nodes.toFinset \ closureFix g)

/-! ## Top-level message builder (`buildMessage` in `internal/builder.go`,
current version, with dependency tracking) -/

/-- Dependency bookkeeping done per property by `buildMessage`: a direct
property `$ref`, and an array-item `$ref`, each contribute an edge. -/
def trackPropDeps (name : String) (propSchema : Schema)
    (propProxy : SchemaProxy) (graph : DependencyGraph) : DependencyGraph :=
  let g1 :=
    if propProxy.isRef then
      let refName := lastSegment propProxy.ref
      if refName ≠ "" then graph.AddDependency name refName else graph
    else graph
  if !propSchema.types.isEmpty && containsFold propSchema.types "array" then
    match propSchema.items with
    | some itemProxy =>
      if itemProxy.isRef then
        let refName := lastSegment itemProxy.ref
        if refName ≠ "" then g1.AddDependency name refName else g1
      else g1
    | none => g1
  else g1

/-- Property loop of the top-level `buildMessage` (same shape as
`buildFields` plus dependency tracking and `PropertyError` wrapping). -/
def buildFieldsTop : Nat → String → List (String × SchemaProxy) →
    NameTracker → Nat → ProtoMessage → Context → DependencyGraph →
    Except String (ProtoMessage × Context × DependencyGraph)
  | _, _, [], _, _, msg, ctx, graph => .ok (msg, ctx, graph)
  | 0, _, _ :: _, _, _, _, _, _ => .error "recursion limit exceeded"
  | fuel + 1, name, (propName, propProxy) :: rest, fieldTracker, fieldNumber,
      msg, ctx, graph =>
    match propProxy.schema with
    | none => .error (PropertyError name propName "has nil schema")
    | some propSchema =>
      let graph1 := trackPropDeps name propSchema propProxy graph
      match SanitizeFieldName propName with
      | .error e => .error (PropertyError name propName e)
      | .ok sanitizedName =>
        let tr := fieldTracker.UniqueName sanitizedName
        match protoType fuel propSchema propName propProxy ctx (some msg) with
        | .error e =>
          if errMentionsProp e propName then
            .error ("schema " ++ name ++ ": " ++ e)
          else .error (PropertyError name propName e)
        | .ok (protoTypeName, repeated, ctx', parentOpt) =>
          let msg1 := parentOpt.getD msg
          let fieldDescription :=
            if !propSchema.types.isEmpty &&
                (containsFold propSchema.types "object" || isEnumSchema propSchema) then
              ""
            else propSchema.descr
          let field : ProtoField :=
            ⟨tr.1, protoTypeName, fieldNumber, propName, fieldDescription, repeated⟩
          buildFieldsTop fuel name rest tr.2 (fieldNumber + 1)
            (msg1.pushField field) ctx' graph1

/-- `buildMessage` from `internal/builder.go` (current version). -/
def buildMessage (fuel : Nat) (name : String) (proxy : SchemaProxy)
    (ctx : Context) (graph : DependencyGraph) :
    Except String (ProtoMessage × Context × DependencyGraph) :=
  match proxy.schema with
  | none =>
    match proxy.buildErr with
    | some e => .error (SchemaError name ("failed to resolve schema: " ++ e))
    | none => .error (SchemaError name "schema is nil")
  | some schema =>
    if schema.types.isEmpty || !containsFold schema.types "object" then
      .error (SchemaError name "only objects and enums supported at top level")
    else
      let r := ctx.tracker.UniqueName (ToPascalCase name)
      let msg : ProtoMessage := .mk r.1 schema.descr [] [] name
      let ctx1 : Context := { ctx with tracker := r.2 }
      match buildFieldsTop fuel name (schema.props.getD []) NameTracker.new 1
          msg ctx1 graph with
      | .error e => .error e
      | .ok (msg', ctx', graph') =>
        .ok (msg', { ctx' with
                       messages := ctx'.messages ++ [msg']
                       defs := ctx'.defs ++ [.msg msg'] }, graph')

/-- `extractVariantNames` (called from `BuildMessages`; its defining file
is not among the available sources).  Modelled from the spec: variant
names are the referenced schema names, i.e. the last path segment of each
variant's `$ref`. -/
def extractVariantNames (variants : List SchemaProxy) : List String :=
  variants.map fun v => lastSegment v.ref

/-- `BuildMessages` from `internal/builder.go` (current version), first
pass: register every entry in the graph, validate, and mark oneOf schemas
and their variants. -/
def buildFirstPass : List SchemaEntry → DependencyGraph →
    Except String DependencyGraph
  | [], graph => .ok graph
  | entry :: rest, graph =>
    let g1 := graph.AddSchema entry.name
    match entry.proxy.schema with
    | none => buildFirstPass rest g1
    | some schema =>
      match validateTopLevelSchema schema entry.name with
      | .error e => .error e
      | .ok _ =>
        let g2 :=
          if !schema.oneOf.isEmpty then
            g1.MarkUnion entry.name (extractVariantNames schema.oneOf)
          else g1
        buildFirstPass rest g2

/-- `BuildMessages`, second pass: skip nil schemas and oneOf schemas,
build enums for enum schemas, messages otherwise. -/
def buildSecondPass (fuel : Nat) : List SchemaEntry → Context →
    DependencyGraph → Except String (Context × DependencyGraph)
  | [], ctx, graph => .ok (ctx, graph)
  | entry :: rest, ctx, graph =>
    match entry.proxy.schema with
    | none => buildSecondPass fuel rest ctx graph
    | some schema =>
      if !schema.oneOf.isEmpty then
        buildSecondPass fuel rest ctx graph
      else if isEnumSchema schema then
        match buildEnum entry.name entry.proxy ctx with
        | .error e => .error e
        | .ok (_, ctx') => buildSecondPass fuel rest ctx' graph
      else
        match buildMessage fuel entry.name entry.proxy ctx graph with
        | .error e => .error e
        | .ok (_, ctx', graph') => buildSecondPass fuel rest ctx' graph'

/-- `BuildMessages` from `internal/builder.go` (current version). -/
def BuildMessages (fuel : Nat) (entries : List SchemaEntry) (ctx : Context) :
    Except String (Context × DependencyGraph) :=
  match buildFirstPass entries DependencyGraph.new with
  | .error e => .error e
  | .ok graph => buildSecondPass fuel entries ctx graph

/-! ## Explicit field-number overrides

Modelled from the spec: the `x-proto-number` override feature is
exercised by the repository's tests but its implementing code is not
among the available sources.  Spec section 4.3: an override must parse as
an integer, lie in `[1, 536870911]`, avoid the reserved range
`[19000, 19999]`, and be unique within the message; overrides are
all-or-nothing per message; without overrides, numbers are assigned
sequentially from 1 in declaration order; with overrides, the annotated
value is used verbatim and declaration order is preserved. -/

/-- Decimal digit accumulator. -/
def natOfDigits (ds : List Char) : Nat :=
  ds.foldl (fun n c => n * 10 + (c.toNat - 48)) 0

/-- Modelled from the spec: parse an annotation value as a decimal
integer (optionally signed); anything else — `abc`, `3.14`, empty — is
not a valid integer. -/
def parseDecInt (s : String) : Option Int :=
  match s.toList with
  | [] => none
  | '-' :: ds =>
    if !ds.isEmpty && ds.all (fun c => c.isDigit) then
      some (-(natOfDigits ds : Int))
    else none
  | ds =>
    if ds.all (fun c => c.isDigit) then some ((natOfDigits ds : Int))
    else none

/-- Largest legal field number. -/
def maxFieldNumber : Int := 536870911

/-- Modelled from the spec: reserved range test. -/
def inReservedRange (n : Int) : Bool :=
  19000 ≤ n && n ≤ 19999

/-- Modelled from the spec: parse and range-check every override, in
declaration order. -/
def parseAnnotations : List (String × String) →
    Except String (List (String × Int))
  | [] => .ok []
  | (name, a) :: rest =>
    match parseDecInt a with
    | none => .error "x-proto-number must be a valid integer"
    | some n =>
      if n < 1 || n > maxFieldNumber then
        .error "x-proto-number must be between 1 and 536870911"
      else if inReservedRange n then
        .error (toString n ++ " is in reserved range 19000-19999")
      else
        match parseAnnotations rest with
        | .error e => .error e
        | .ok rest' => .ok ((name, n) :: rest')

/-- Modelled from the spec: duplicate detection over the parsed numbers,
scanning in declaration order with the set of already-seen numbers. -/
def checkDupNums (seen : List Int) : List Int → Except String Unit
  | [] => .ok ()
  | n :: rest =>
    if n ∈ seen then .error ("duplicate x-proto-number " ++ toString n)
    else checkDupNums (n :: seen) rest

/-- Modelled from the spec: assign field numbers for one message's
properties, each carrying an optional override annotation.  Sequential
from 1 when no property is annotated; all-or-nothing otherwise; annotated
values are validated and used verbatim, keeping declaration order. -/
def assignFieldNumbers (props : List (String × Option String)) :
    Except String (List (String × Nat)) :=
  let annotated := props.filterMap fun p => p.2.map fun a => (p.1, a)
  if annotated.isEmpty then
    .ok (props.enum.map fun p => (p.2.1, p.1 + 1))
  else if annotated.length ≠ props.length then
    .error ("x-proto-number must be specified on all fields or none (" ++
      toString annotated.length ++ " of " ++ toString props.length ++
      " fields have x-proto-number)")
  else
    match parseAnnotations annotated with
    | .error e => .error e
    | .ok pairs =>
      match checkDupNums [] (pairs.map fun p => p.2) with
      | .error e => .error e
      | .ok _ => .ok (pairs.map fun p => (p.1, p.2.toNat))

/-! ## Emitter and conversion entry point (`convert.go`, current
version).  The current text generator called by `Convert` is not among
the available sources; it is modelled from spec section 6's output
grammar.  Emitted text details do not affect any claim below beyond the
conversion being a pure function of its inputs. -/

/-- `formatCommentForTemplate` from `internal/generator.go`: one comment
line per description line, blank lines becoming bare markers. -/
def formatComment (descr : String) : String :=
  if (descr.trim = "") then ""
  else
    String.join ((descr.splitOn "\n").map fun line =>
      let trimmed := String.mk (line.toList.reverse.dropWhile
        (fun c => c = ' ' || c = '\t')).reverse
      if trimmed = "" then "//\n" else "// " ++ trimmed ++ "\n")

/-- Modelled from the spec: render one field declaration. -/
def renderField (f : ProtoField) : String :=
  "  " ++ (if f.repeated then "repeated " else "") ++ f.type ++ " " ++
    f.name ++ " = " ++ toString f.number ++
    " [json_name = \"" ++ f.jsonName ++ "\"];\n"

/-- Modelled from the spec: render one enum definition. -/
def renderEnum (e : ProtoEnum) : String :=
  formatComment e.descr ++ "enum " ++ e.name ++ " \x7b\n" ++
    String.join (e.values.map fun v =>
      "  " ++ v.name ++ " = " ++ toString v.number ++ ";\n") ++
    "\x7d\n"

/-- Modelled from the spec: render one message definition, nested
messages first. -/
def renderMessage : ProtoMessage → String
  | .mk name descr fields nested _ =>
    formatComment descr ++ "message " ++ name ++ " \x7b\n" ++
      String.join (nested.attach.map fun m => renderMessage m.1) ++
      String.join (fields.map renderField) ++
      "\x7d\n"
decreasing_by
  have := List.sizeOf_lt_of_mem m.2
  simp only [ProtoMessage.mk.sizeOf_spec] at *
  omega

/-- Modelled from the spec: `Generate` renders the fixed header followed
by the interleaved definitions in order. -/
def Generate (packageName packagePath : String) (ctx : Context) : String :=
  "syntax = \"proto3\";\n\npackage " ++ packageName ++ ";\n\n" ++
    "option go_package = \"" ++ packagePath ++ "\";\n" ++
    (if ctx.usesTimestamp then "\nimport \"google/protobuf/timestamp.proto\";\n"
     else "") ++
    String.join (ctx.defs.map fun d =>
      match d with
      | .msg m => "\n" ++ renderMessage m
      | .enum e => "\n" ++ renderEnum e)

/-- Modelled from the spec: `ExtractPackageName` takes the last path
segment of the Go package path. -/
def ExtractPackageName (path : String) : String :=
  lastSegment path

/-- Modelled from the spec: native-struct (Go) output for the
union-classified schemas — one struct per union with one optional
reference field per variant, rendered deterministically in declaration
order. -/
def GenerateGo (packageName : String) (unions : List (String × List String)) :
    String :=
  "package " ++ packageName ++ "\n" ++
    String.join (unions.map fun u =>
      "\ntype " ++ u.1 ++ " struct \x7b\n" ++
        String.join (u.2.map fun v => "  " ++ v ++ " *" ++ v ++ "\n") ++
        "\x7d\n")

/-- `TypeLocation` from `convert.go`. -/
inductive TypeLocation where
  | proto
  | golang
deriving Repr, DecidableEq

/-- `ConvertOptions` from `convert.go` (current version). -/
structure ConvertOptions where
  packageName : String
  packagePath : String
  goPackagePath : String

/-- `ConvertResult` from `convert.go` (current version); the Go
`TypeMap` map is modelled as a membership function, reasons omitted. -/
structure ConvertResult where
  protobuf : Option String
  golang : Option String
  typeMap : String → Option TypeLocation

/-- `filterProtoMessages` from `convert.go`: keep only messages whose
originating schema is classified for proto output. -/
def filterProtoMessages (messages : List ProtoMessage)
    (protoTypes : Finset String) : List ProtoMessage :=
  messages.filter fun m => m.originalSchema ∈ protoTypes

/-- `filterProtoDefinitions` from `convert.go`: drop Go-only messages,
keep enums. -/
def filterProtoDefinitions (defs : List Definition)
    (protoTypes : Finset String) : List Definition :=
  defs.filter fun d =>
    match d with
    | .msg m => m.originalSchema ∈ protoTypes
    | .enum _ => true

/-- `buildTypeMap` from `convert.go`. -/
def buildTypeMap (goTypes protoTypes : Finset String) :
    String → Option TypeLocation :=
  fun name =>
    if name ∈ goTypes then some .golang
    else if name ∈ protoTypes then some .proto
    else none

/-- Union declarations of the parsed document (name and variant names of
every oneOf schema), used for the modelled native-struct output. -/
def unionDecls (entries : List SchemaEntry) : List (String × List String) :=
  entries.filterMap fun entry =>
    match entry.proxy.schema with
    | some schema =>
      if !schema.oneOf.isEmpty then
        some (entry.name, extractVariantNames schema.oneOf)
      else none
    | none => none

/-- `Convert` from `convert.go` (current version), over the parsed
document (document parsing is an external collaborator; it yields the
ordered `(name, node)` entries consumed here). -/
def convert (fuel : Nat) (entries : List SchemaEntry)
    (opts : ConvertOptions) : Except String ConvertResult :=
  if opts.packageName = "" then .error "package name cannot be empty"
  else if opts.packagePath = "" then .error "package path cannot be empty"
  else
    let goPackagePath :=
      if opts.goPackagePath = "" then opts.packagePath else opts.goPackagePath
    match BuildMessages fuel entries Context.new with
    | .error e => .error e
    | .ok (ctx, graph) =>
      let classified := graph.ComputeTransitiveClosure
      let goTypes := classified.1
      let protoTypes := classified.2
      let typeMap := buildTypeMap goTypes protoTypes
      let protoBytes :=
        if protoTypes.Nonempty || goTypes = ∅ then
          let protoCtx : Context :=
            { tracker := Context.new.tracker
              messages := filterProtoMessages ctx.messages protoTypes
              enums := ctx.enums
              defs := filterProtoDefinitions ctx.defs protoTypes
              usesTimestamp := ctx.usesTimestamp }
          some (Generate opts.packageName opts.packagePath protoCtx)
        else none
      let goBytes :=
        if goTypes ≠ ∅ then
          some (GenerateGo (ExtractPackageName goPackagePath)
            (unionDecls entries))
        else none
      .ok ⟨protoBytes, goBytes, typeMap⟩

/-! ## Reachability predicates for the classification claim -/

/-- Reachability of a marked seed along dependency edges (a schema
reaches a seed when it is a seed, or has an edge to a schema that
does). -/
inductive Reaches (edges : List (String × String)) (seeds : Finset String) :
    String → Prop where
  | base {s} : s ∈ seeds → Reaches edges seeds s
  | step {s t} : (s, t) ∈ edges → Reaches edges seeds t → Reaches edges seeds s

/-- The classification predicate of the specification, stated the way the
claim states it: a schema requires native-struct output iff it declares a
discriminated oneOf, is a variant of one, or depends (directly or
transitively, via a property or array-item reference edge) on a schema
that requires it. -/
inductive RequiresNative (unions : List (String × List String))
    (edges : List (String × String)) : String → Prop where
  | declares {s vs} : (s, vs) ∈ unions → RequiresNative unions edges s
  | variant {u vs s} : (u, vs) ∈ unions → s ∈ vs →
      RequiresNative unions edges s
  | depends {s t} : (s, t) ∈ edges → RequiresNative unions edges t →
      RequiresNative unions edges s

/-- Build the dependency graph of a document presented as: the declared
schema names, the discriminated unions (with their variant names), and
the reference edges — applying `AddSchema`, `MarkUnion` and
`AddDependency` the way `BuildMessages`/`buildMessage` do. -/
def graphOfDecls (nodes : List String) (unions : List (String × List String))
    (edges : List (String × String)) : DependencyGraph :=
  let g0 := nodes.foldl (fun g n => g.AddSchema n) DependencyGraph.new
  let g1 := unions.foldl (fun g u => g.MarkUnion u.1 u.2) g0
  edges.foldl (fun g e => g.AddDependency e.1 e.2) g1

/-! ## Reference formulation of field-name sanitization (spec side of the
corrected claim about `SanitizeFieldName`) -/

/-- Byte length of a char list under UTF-8 (model of Go `len(name)`). -/
def byteLen (cs : List Char) : Nat :=
  cs.foldl (fun n c => n + c.utf8Size) 0

/-- Reference body of sanitization: emit valid characters unchanged and
replace each invalid character with an underscore unless the previously
emitted character is already an underscore (collapsing runs). -/
def sanitizeBody (prev : Char) : List Char → List Char
  | [] => []
  | c :: rest =>
    if isValidProtoFieldChar c then c :: sanitizeBody c rest
    else if prev = '_' then sanitizeBody prev rest
    else '_' :: sanitizeBody '_' rest

/-- Whether the trailing synthesized underscore gets trimmed: exactly
when the final character is an invalid single-byte (ASCII) character. -/
def lastCharTrim (cs : List Char) : Bool :=
  match cs.getLast? with
  | some c => !isValidProtoFieldChar c && c.utf8Size = 1
  | none => false

/-- Reference formulation of the (corrected) sanitization contract:
fails exactly on an empty input or one whose first character is not an
ASCII letter; otherwise collapses invalid characters to single
underscores and trims one trailing underscore exactly when the final
character is an invalid single-byte character. -/
def sanitizeSpec (name : String) : Except String String :=
  match name.toList with
  | [] => .error "field name cannot be empty"
  | c0 :: rest =>
    if isAsciiLetter c0 then
      let b := sanitizeBody (Char.ofNat 0) (c0 :: rest)
      .ok (String.mk (if lastCharTrim (c0 :: rest) then b.dropLast else b))
    else
      .error "field name must start with a letter"

/-! ## Concrete example inputs used by witnesses and counterexamples -/

/-- Inline string-enum property schema (the `status` property of the
string-enum example in the repository documentation). -/
def statusSchema : Schema :=
  .mk ["string"] "" "" none none
    [some "pending", some "confirmed", some "shipped"] [] [] [] false none

/-- Non-reference proxy resolving to `statusSchema`. -/
def statusProxy : SchemaProxy :=
  .mk false "" (some statusSchema) none

/-- Top-level string enum schema with literals `active`, `in-progress`. -/
def statusEnumSchema : Schema :=
  .mk ["string"] "" "" none none [some "active", some "in-progress"]
    [] [] [] false none

/-- Proxy resolving to `statusEnumSchema`. -/
def statusEnumProxy : SchemaProxy :=
  .mk false "" (some statusEnumSchema) none

/-- Top-level integer enum schema with literal `404`. -/
def codeEnumSchema : Schema :=
  .mk ["integer"] "" "" none none [some "404"] [] [] [] false none

/-- Proxy resolving to `codeEnumSchema`. -/
def codeEnumProxy : SchemaProxy :=
  .mk false "" (some codeEnumSchema) none

/-- Empty top-level object schema (type `object`, no properties, no
composition keywords). -/
def emptyObjectSchema : Schema :=
  .mk ["object"] "" "" none none [] [] [] [] false none

/-- Proxy resolving to `emptyObjectSchema`. -/
def emptyObjectProxy : SchemaProxy :=
  .mk false "" (some emptyObjectSchema) none

/-- The Pet/Dog/Cat/Owner example graph of the spec: `Pet` declares a
discriminated oneOf with variants `Dog` and `Cat`; `Owner` has a
property reference to `Pet`; `Address` is unrelated. -/
def petNodes : List String := ["Address", "Pet", "Dog", "Cat", "Owner"]

/-- Union declarations of the Pet example. -/
def petUnions : List (String × List String) := [("Pet", ["Dog", "Cat"])]

/-- Dependency edges of the Pet example. -/
def petEdges : List (String × String) := [("Owner", "Pet")]

/-! # Theorems -/

/-! ## C2: determinism -/

/-- C2: for every parsed input document and options value, conversion is
a pure function of its inputs — calling it twice with identical inputs
yields identical results, hence byte-identical outputs. -/
theorem claim2_convert_deterministic (fuel : Nat) (entries : List SchemaEntry)
    (opts : ConvertOptions) :
    convert fuel entries opts = convert fuel entries opts := rfl

/-! ## C5: the scalar type table -/

/-- C5: the `(type, format)` table of `MapScalarType` — `integer` with no
format or `int32` gives int32, `integer`+`int64` gives int64,
`number`+`float` gives float, `number` with no format or `double` gives
double, `string` with no format gives string, `string`+`byte`/`binary`
gives bytes, `string`+`date`/`date-time` gives string, and `boolean`
with any format gives bool. -/
theorem claim5_scalar_table :
    MapScalarType "integer" "" = .ok "int32" ∧
    MapScalarType "integer" "int32" = .ok "int32" ∧
    MapScalarType "integer" "int64" = .ok "int64" ∧
    MapScalarType "number" "float" = .ok "float" ∧
    MapScalarType "number" "" = .ok "double" ∧
    MapScalarType "number" "double" = .ok "double" ∧
    MapScalarType "string" "" = .ok "string" ∧
    MapScalarType "string" "byte" = .ok "bytes" ∧
    MapScalarType "string" "binary" = .ok "bytes" ∧
    MapScalarType "string" "date" = .ok "string" ∧
    MapScalarType "string" "date-time" = .ok "string" ∧
    ∀ format, MapScalarType "boolean" format = .ok "bool" :=
  ⟨rfl, rfl, rfl, rfl, rfl, rfl, rfl, rfl, rfl, rfl, rfl, fun _ => rfl⟩

/-! ## C3: inline string enums -/

/-- C3 (code divergence): on a property whose schema declares string-typed
enum literals, `ProtoType` hoists the enum to a new top-level `Enum` and
types the field by the hoisted enum's name, instead of emitting a scalar
`string` field with a comment as the documentation describes: for the
property `status` with literals `pending`/`confirmed`/`shipped`, the
resulting field type is `Status` (not `string`) and a new Enum named
`Status` is appended to the context. -/
theorem claim3_string_enum_hoisted :
    ∃ ctx' : Context,
      protoType 1 statusSchema "status" statusProxy Context.new none =
        .ok ("Status", false, ctx', none) ∧
      ctx'.enums.map (fun e => e.name) = ["Status"] ∧
      ("Status" : String) ≠ "string" :=
  ⟨_, rfl, rfl, by decide⟩

/-! ## C9: empty object schemas -/

/-- Membership in a `containsFold` match implies the list is nonempty. -/
theorem containsFold_ne_nil {l : List String} {item : String}
    (h : containsFold l item = true) : l ≠ [] := by
  intro hl
  subst hl
  simp [containsFold] at h

/-- C9: a top-level schema of type `object` that declares no properties
and no composition keywords passes validation and builds a message with
the Pascal-cased, tracker-deduplicated name and an empty field list. -/
theorem claim9_empty_object_message (fuel : Nat) (name : String)
    (proxy : SchemaProxy) (schema : Schema) (ctx : Context)
    (graph : DependencyGraph)
    (hres : proxy.schema = some schema)
    (htype : containsFold schema.types "object" = true)
    (hprops : schema.props = none ∨ schema.props = some [])
    (hone : schema.oneOf = []) (hall : schema.allOf = [])
    (hany : schema.anyOf = []) (hnot : schema.hasNot = false) :
    validateTopLevelSchema schema name = .ok () ∧
    buildMessage fuel name proxy ctx graph =
      .ok (ProtoMessage.mk (ctx.tracker.UniqueName (ToPascalCase name)).1
             schema.descr [] [] name,
           { ctx with
               tracker := (ctx.tracker.UniqueName (ToPascalCase name)).2
               messages := ctx.messages ++
                 [ProtoMessage.mk (ctx.tracker.UniqueName (ToPascalCase name)).1
                    schema.descr [] [] name]
               defs := ctx.defs ++
                 [Definition.msg
                    (ProtoMessage.mk (ctx.tracker.UniqueName (ToPascalCase name)).1
                      schema.descr [] [] name)] },
           graph) := by
  have hnonempty : schema.types.isEmpty = false := by
    have := containsFold_ne_nil htype
    cases hts : schema.types with
    | nil => exact absurd hts this
    | cons a l => simp
  constructor
  · simp [validateTopLevelSchema, hone, hall, hany, hnot]
  · have hp : schema.props.getD [] = [] := by
      rcases hprops with h | h <;> simp [h]
    simp only [buildMessage, hres, hnonempty, htype, hp, Bool.false_or,
      Bool.not_true, buildFieldsTop]
    rfl

/-- Witness for C9 at a concrete input: the schema `User` of type
`object` with no properties builds the empty message `User`. -/
theorem claim9_witness :
    validateTopLevelSchema emptyObjectSchema "User" = .ok () ∧
    buildMessage 0 "User" emptyObjectProxy Context.new
        DependencyGraph.new =
      .ok (ProtoMessage.mk
             (Context.new.tracker.UniqueName (ToPascalCase "User")).1
             emptyObjectSchema.descr [] [] "User",
           { Context.new with
               tracker :=
                 (Context.new.tracker.UniqueName (ToPascalCase "User")).2
               messages := Context.new.messages ++
                 [ProtoMessage.mk
                    (Context.new.tracker.UniqueName (ToPascalCase "User")).1
                    emptyObjectSchema.descr [] [] "User"]
               defs := Context.new.defs ++
                 [Definition.msg
                    (ProtoMessage.mk
                      (Context.new.tracker.UniqueName (ToPascalCase "User")).1
                      emptyObjectSchema.descr [] [] "User")] },
           DependencyGraph.new) :=
  claim9_empty_object_message 0 "User" emptyObjectProxy emptyObjectSchema
    Context.new DependencyGraph.new rfl (by decide) (Or.inl rfl) rfl rfl rfl rfl

/-! ## C6: enum value naming and numbering -/

/-- C6: every enum built by `buildEnum` starts with the synthetic
`<SNAKE_UPPER(name)>_UNSPECIFIED` value at number 0, and its subsequent
values are numbered 1, 2, … in source-literal order, named
`ToEnumValueName` of the enum name and the literal. -/
theorem claim6_enum_values (name : String) (proxy : SchemaProxy)
    (schema : Schema) (ctx : Context) (e : ProtoEnum) (ctx' : Context)
    (hres : proxy.schema = some schema)
    (h : buildEnum name proxy ctx = .ok (e, ctx')) :
    e.name = (ctx.tracker.UniqueName (ToPascalCase name)).1 ∧
    e.values.head? =
      some ⟨strToUpper (ToSnakeCase e.name) ++ "_UNSPECIFIED", 0⟩ ∧
    e.values.length = schema.enumVals.length + 1 ∧
    ∀ i, i < schema.enumVals.length →
      e.values[i + 1]? =
        (schema.enumVals[i]?.map fun v =>
          ProtoEnumValue.mk (ToEnumValueName e.name (v.getD "")) (i + 1)) := by
  rw [buildEnum, hres] at h
  simp only [Except.ok.injEq, Prod.mk.injEq] at h
  obtain ⟨he, _⟩ := h
  subst he
  refine ⟨rfl, rfl, by simp, ?_⟩
  intro i hi
  simp only [List.getElem?_map, List.getElem?_enum]
  cases h2 : schema.enumVals[i]? <;> simp [h2]

/-- Witness for C6: enum name `Status` with literals `active`,
`in-progress` yields `STATUS_UNSPECIFIED = 0`, `STATUS_ACTIVE = 1` and
`STATUS_IN_PROGRESS = 2`; enum name `Code` with literal `404` yields
`CODE_404 = 1`. -/
theorem claim6_witness :
    ∃ e ctx', buildEnum "Status" statusEnumProxy Context.new = .ok (e, ctx') ∧
      e.values.head? = some ⟨"STATUS_UNSPECIFIED", 0⟩ ∧
      e.values[1]? = some ⟨"STATUS_ACTIVE", 1⟩ ∧
      e.values[2]? = some ⟨"STATUS_IN_PROGRESS", 2⟩ ∧
      ∃ e2 ctx2, buildEnum "Code" codeEnumProxy Context.new = .ok (e2, ctx2) ∧
        e2.values[1]? = some ⟨"CODE_404", 1⟩ := by
  have h := claim6_enum_values "Status" statusEnumProxy statusEnumSchema
    Context.new _ _ rfl rfl
  have h2 := claim6_enum_values "Code" codeEnumProxy codeEnumSchema
    Context.new _ _ rfl rfl
  refine ⟨_, _, rfl, ?_, rfl, rfl, _, _, rfl, rfl⟩
  exact h.2.1

/-! ## C7: unique-name generation -/

/-- Repeated requests for the same candidate against a tracker that has
already served it `n` times produce `candidate_<n+1>`, `candidate_<n+2>`,
and so on. -/
theorem uniqueNames_replicate_loop (c : String) :
    ∀ (m n : Nat), 1 ≤ n →
      uniqueNames ⟨[(c, n)]⟩ (List.replicate m c) =
        ((List.range m).map fun i => c ++ "_" ++ toString (n + i + 1),
         ⟨[(c, n + m)]⟩) := by
  intro m
  induction m with
  | zero => intro n _; simp [uniqueNames]
  | succ m ih =>
    intro n hn
    have hstep : (NameTracker.UniqueName ⟨[(c, n)]⟩ c) =
        (c ++ "_" ++ toString (n + 1), ⟨[(c, n + 1)]⟩) := by
      simp [NameTracker.UniqueName, trackLookup, trackSet]
    rw [List.replicate_succ]
    simp only [uniqueNames, hstep]
    rw [ih (n + 1) (by omega)]
    have harith : n + 1 + m = n + (m + 1) := by omega
    rw [harith, List.range_succ_eq_map]
    simp only [List.map_cons, List.map_map, Prod.mk.injEq, List.cons.injEq,
      Nat.add_zero]
    refine ⟨⟨trivial, ?_⟩, trivial⟩
    apply List.map_congr_left
    intro i _
    simp only [Function.comp_apply, Nat.succ_eq_add_one]
    congr 2
    omega

/-- C7: `UniqueName` returns the candidate itself on first use and
`candidate_<k>` on the k-th subsequent request (k starting at 2); in
particular the schema names `User`, `user`, `USER` (in that order)
Pascal-case to the same candidate and emit as `User`, `User_2`,
`User_3`. -/
theorem claim7_unique_names :
    (∀ (candidate : String) (k : Nat),
      (uniqueNames NameTracker.new (List.replicate (k + 1) candidate)).1 =
        candidate ::
          ((List.range k).map fun i => candidate ++ "_" ++ toString (i + 2))) ∧
    (uniqueNames NameTracker.new
        (["User", "user", "USER"].map ToPascalCase)).1 =
      ["User", "User_2", "User_3"] := by
  constructor
  · intro candidate k
    have hfirst : NameTracker.UniqueName NameTracker.new candidate =
        (candidate, ⟨[(candidate, 1)]⟩) := by
      simp [NameTracker.UniqueName, NameTracker.new, trackLookup, trackSet]
    rw [List.replicate_succ]
    simp only [uniqueNames, hfirst]
    rw [uniqueNames_replicate_loop candidate k 1 le_rfl]
    simp only [List.cons.injEq, true_and]
    apply List.map_congr_left
    intro i _
    congr 2
    omega
  · rfl

/-! ## C4: explicit field-number overrides -/

/-- Validity of one override annotation: parseable, positive, within the
legal range and outside the reserved range. -/
def validOverride (a : String) : Prop :=
  ∃ n : Int, parseDecInt a = some n ∧ 1 ≤ n ∧ n ≤ 536870911 ∧
    ¬(19000 ≤ n ∧ n ≤ 19999)

/-- `parseAnnotations` succeeds exactly when every annotation is valid,
and then returns the parsed numbers paired with the names in
declaration order. -/
theorem parseAnnotations_char (l : List (String × String)) :
    match parseAnnotations l with
    | .ok r => (∀ p ∈ l, validOverride p.2) ∧
        r = l.map fun p => (p.1, (parseDecInt p.2).getD 0)
    | .error _ => ¬ ∀ p ∈ l, validOverride p.2 := by
  induction l with
  | nil => simp [parseAnnotations]
  | cons hd tl ih =>
    rw [parseAnnotations]
    cases hp : parseDecInt hd.2 with
    | none =>
      simp only
      intro hall
      obtain ⟨n, hn, _⟩ := hall hd (by simp)
      rw [hp] at hn
      exact Option.noConfusion hn
    | some n =>
      by_cases hlow : n < 1 || n > maxFieldNumber
      · simp only [hlow, if_true]
        intro hall
        obtain ⟨n', hn', h1, h2, _⟩ := hall hd (by simp)
        rw [hp] at hn'
        obtain rfl : n = n' := Option.some.injEq .. ▸ hn'.symm ▸ rfl
        simp only [Bool.or_eq_true, decide_eq_true_eq] at hlow
        rcases hlow with h | h
        · omega
        · exact absurd h2 (by simpa [maxFieldNumber] using h)
      · by_cases hres : inReservedRange n = true
        · simp only [hlow, if_false, hres, if_true]
          intro hall
          obtain ⟨n', hn', _, _, h3⟩ := hall hd (by simp)
          rw [hp] at hn'
          obtain rfl : n = n' := Option.some.injEq .. ▸ hn'.symm ▸ rfl
          simp only [inReservedRange, Bool.and_eq_true, decide_eq_true_eq] at hres
          exact h3 hres
        · simp only [hlow, if_false, hres]
          cases hrest : parseAnnotations tl with
          | error e =>
            rw [hrest] at ih
            simp only
            intro hall
            exact ih fun p hpmem => hall p (by simp [hpmem])
          | ok r =>
            rw [hrest] at ih
            simp only
            constructor
            · intro p hpmem
              rcases List.mem_cons.mp hpmem with rfl | hmem
              · refine ⟨n, hp, ?_, ?_, ?_⟩
                · simp only [Bool.or_eq_true, decide_eq_true_eq, not_or] at hlow
                  omega
                · simp only [Bool.or_eq_true, decide_eq_true_eq, not_or,
                    maxFieldNumber] at hlow
                  omega
                · intro hcon
                  apply hres
                  simp only [inReservedRange, Bool.and_eq_true,
                    decide_eq_true_eq]
                  exact hcon
              · exact ih.1 p hmem
            · simp only [List.map_cons, hp, Option.getD_some]
              exact List.cons.injEq .. ▸ ⟨rfl, ih.2⟩

/-- `checkDupNums` succeeds exactly when the list has no duplicates and
avoids the already-seen numbers. -/
theorem checkDupNums_ok_iff (l : List Int) : ∀ seen : List Int,
    checkDupNums seen l = .ok () ↔ (l.Nodup ∧ ∀ n ∈ l, n ∉ seen) := by
  induction l with
  | nil => intro seen; simp [checkDupNums]
  | cons hd tl ih =>
    intro seen
    rw [checkDupNums]
    by_cases hmem : hd ∈ seen
    · simp only [hmem, if_true]
      constructor
      · intro h; exact Except.noConfusion h
      · rintro ⟨_, hall⟩
        exact absurd hmem (hall hd (by simp))
    · simp only [hmem, if_false, ih (hd :: seen)]
      constructor
      · rintro ⟨hnodup, hall⟩
        refine ⟨List.nodup_cons.mpr ⟨?_, hnodup⟩, ?_⟩
        · intro hcon
          exact (hall hd hcon) (by simp)
        · intro n hn
          rcases List.mem_cons.mp hn with rfl | hmem'
          · exact hmem
          · intro hcon
            exact (hall n hmem') (by simp [hcon])
      · rintro ⟨hnodup, hall⟩
        obtain ⟨hhd, htl⟩ := List.nodup_cons.mp hnodup
        refine ⟨htl, ?_⟩
        intro n hn hcon
        rcases List.mem_cons.mp hcon with rfl | hmem'
        · exact hhd hn
        · exact (hall n (by simp [hn])) hmem'

/-- The annotated properties of an all-annotated property list are the
properties themselves. -/
theorem filterMap_all_annotated (props : List (String × String)) :
    (props.map fun p => (p.1, some p.2)).filterMap
      (fun p : String × Option String => p.2.map fun a => (p.1, a)) = props := by
  induction props with
  | nil => rfl
  | cons hd tl ih => simp [ih]

/-- C4: for a message whose properties all carry explicit override
annotations, assignment succeeds iff every annotation parses to an
integer in `[1, 536870911]` outside the reserved `[19000, 19999]` range
and the parsed numbers are unique within the message; on success the
emitted numbers are the annotated values verbatim, with declaration
order preserved. -/
theorem claim4_field_number_overrides (props : List (String × String)) :
    ((∃ r, assignFieldNumbers (props.map fun p => (p.1, some p.2)) = .ok r) ↔
      ((∀ p ∈ props, validOverride p.2) ∧
        (props.map fun p => (parseDecInt p.2).getD 0).Nodup)) ∧
    (∀ r, assignFieldNumbers (props.map fun p => (p.1, some p.2)) = .ok r →
      r = props.map fun p => (p.1, ((parseDecInt p.2).getD 0).toNat)) := by
  have hfm := filterMap_all_annotated props
  by_cases hne : props = []
  · subst hne
    constructor
    · simp [assignFieldNumbers]
    · intro r hr
      simp [assignFieldNumbers] at hr
      simp [← hr]
  · have hassign : assignFieldNumbers (props.map fun p => (p.1, some p.2)) =
        match parseAnnotations props with
        | .error e => .error e
        | .ok pairs =>
          match checkDupNums [] (pairs.map fun p => p.2) with
          | .error e => .error e
          | .ok _ => .ok (pairs.map fun p => (p.1, p.2.toNat)) := by
      rw [assignFieldNumbers]
      simp only [hfm]
      rw [if_neg (by simpa using hne), if_neg (by simp)]
    have hchar := parseAnnotations_char props
    constructor
    · constructor
      · rintro ⟨r, hr⟩
        rw [hassign] at hr
        cases hpa : parseAnnotations props with
        | error e => rw [hpa] at hr; exact Except.noConfusion hr
        | ok pairs =>
          rw [hpa] at hr hchar
          dsimp only at hr hchar
          cases hdup : checkDupNums [] (pairs.map fun p => p.2) with
          | error e => rw [hdup] at hr; exact Except.noConfusion hr
          | ok u =>
            refine ⟨hchar.1, ?_⟩
            have hko : checkDupNums [] (pairs.map fun p => p.2) = .ok () := by
              rw [hdup]
            have hnd := (checkDupNums_ok_iff (pairs.map fun p => p.2) []).mp hko
            have heq : pairs.map (fun p => p.2) =
                props.map fun p => (parseDecInt p.2).getD 0 := by
              rw [hchar.2, List.map_map]
              rfl
            rw [heq] at hnd
            exact hnd.1
      · rintro ⟨hall, hnodup⟩
        rw [hassign]
        cases hpa : parseAnnotations props with
        | error e =>
          rw [hpa] at hchar
          dsimp only at hchar
          exact absurd hall hchar
        | ok pairs =>
          rw [hpa] at hchar
          dsimp only at hchar
          have heq : pairs.map (fun p => p.2) =
              props.map fun p => (parseDecInt p.2).getD 0 := by
            rw [hchar.2, List.map_map]
            rfl
          have hdup : checkDupNums [] (pairs.map fun p => p.2) = .ok () := by
            rw [(checkDupNums_ok_iff _ [])]
            rw [heq]
            exact ⟨hnodup, by simp⟩
          dsimp only
          rw [hdup]
          exact ⟨_, rfl⟩
    · intro r hr
      rw [hassign] at hr
      cases hpa : parseAnnotations props with
      | error e => rw [hpa] at hr; exact Except.noConfusion hr
      | ok pairs =>
        rw [hpa] at hr hchar
        dsimp only at hr hchar
        cases hdup : checkDupNums [] (pairs.map fun p => p.2) with
        | error e => rw [hdup] at hr; exact Except.noConfusion hr
        | ok u =>
          rw [hdup] at hr
          dsimp only at hr
          simp only [Except.ok.injEq] at hr
          rw [← hr, hchar.2, List.map_map]
          rfl

/-- Witness for C4: overrides `3,1,2` on properties declared as
`zebra, apple, banana` give `zebra=3, apple=1, banana=2` — declaration
order preserved, values verbatim. -/
theorem claim4_witness :
    assignFieldNumbers
        [("zebra", some "3"), ("apple", some "1"), ("banana", some "2")] =
      .ok [("zebra", 3), ("apple", 1), ("banana", 2)] := by
  have h := (claim4_field_number_overrides
    [("zebra", "3"), ("apple", "1"), ("banana", "2")]).2
    [("zebra", 3), ("apple", 1), ("banana", 2)] rfl
  rw [h]
  rfl

/-! ## C8 / C10: field-name sanitization -/

/-- Folding byte sizes from an offset. -/
theorem byteLen_foldl (cs : List Char) : ∀ n : Nat,
    cs.foldl (fun n c => n + c.utf8Size) n = n + byteLen cs := by
  induction cs with
  | nil => intro n; simp [byteLen]
  | cons c rest ih =>
    intro n
    rw [byteLen]
    simp only [List.foldl_cons]
    rw [ih, ih (0 + c.utf8Size)]
    omega

/-- Byte length of a cons. -/
theorem byteLen_cons (c : Char) (cs : List Char) :
    byteLen (c :: cs) = c.utf8Size + byteLen cs := by
  rw [byteLen, List.foldl_cons, byteLen_foldl]
  omega

/-- Only the empty list has byte length zero. -/
theorem byteLen_eq_zero {cs : List Char} : byteLen cs = 0 ↔ cs = [] := by
  cases cs with
  | nil => simp [byteLen]
  | cons c rest =>
    rw [byteLen_cons]
    have := Char.utf8Size_pos c
    constructor
    · intro h; omega
    · intro h; exact List.noConfusion h

/-- ASCII letters are valid proto field characters. -/
theorem letter_isValid {c : Char} (h : isAsciiLetter c = true) :
    isValidProtoFieldChar c = true := by
  simp only [isAsciiLetter, Bool.or_eq_true] at h
  simp only [isValidProtoFieldChar, Bool.or_eq_true]
  tauto

/-- ASCII letters are not the underscore. -/
theorem letter_ne_underscore {c : Char} (h : isAsciiLetter c = true) :
    c ≠ '_' := by
  intro hc
  subst hc
  simp only [isAsciiLetter, Bool.or_eq_true, Bool.and_eq_true,
    decide_eq_true_eq] at h
  rcases h with ⟨h1, h2⟩ | ⟨h1, h2⟩ <;> revert h1 h2 <;> decide

/-- `lastCharTrim` ignores a leading character when more follow. -/
theorem lastCharTrim_cons_cons (a b : Char) (l : List Char) :
    lastCharTrim (a :: b :: l) = lastCharTrim (b :: l) := by
  simp [lastCharTrim, List.getLast?_cons_cons]

/-- Helper: the step on a valid rune writes it. -/
theorem sanStep_valid {r : Char} (lw : Char) (acc : List Char)
    (h : isValidProtoFieldChar r = true) :
    sanStep lw acc r = (acc ++ [r], r) := by
  simp [sanStep, h]

/-- Helper: the step on an invalid rune after a non-underscore writes a
single underscore. -/
theorem sanStep_invalid_ne {r lw : Char} (acc : List Char)
    (hv : isValidProtoFieldChar r = false) (hlw : lw ≠ '_') :
    sanStep lw acc r = (acc ++ ['_'], '_') := by
  simp [sanStep, hv, hlw]

/-- Helper: the step on an invalid rune after an underscore writes
nothing. -/
theorem sanStep_invalid_us {r : Char} (acc : List Char)
    (hv : isValidProtoFieldChar r = false) :
    sanStep '_' acc r = (acc, '_') := by
  simp [sanStep, hv]

/-- The state loop of `SanitizeFieldName` computes the collapse-and-trim
reference function: provided the accumulator is nonempty and ends in the
last-written character, the loop appends `sanitizeBody` of the remaining
input and trims one trailing underscore exactly when the final character
is an invalid single-byte character. -/
theorem sanLoop_eq (rest : List Char) : ∀ (i : Nat) (lw : Char)
    (acc : List Char), acc.getLast? = some lw →
    sanLoop rest i (i + byteLen rest) lw acc =
      (if lastCharTrim rest = true then (acc ++ sanitizeBody lw rest).dropLast
       else acc ++ sanitizeBody lw rest) := by
  induction rest with
  | nil =>
    intro i lw acc _
    simp [sanLoop, lastCharTrim, sanitizeBody]
  | cons r rest ih =>
    intro i lw acc hacc
    have hbl : byteLen (r :: rest) = r.utf8Size + byteLen rest :=
      byteLen_cons r rest
    have hb0 : byteLen ([] : List Char) = 0 := rfl
    have hsz := Char.utf8Size_pos r
    have hsplit : i + byteLen (r :: rest) =
        (i + r.utf8Size) + byteLen rest := by omega
    have hcond : (i = i + byteLen (r :: rest) - 1) ↔
        (rest = [] ∧ r.utf8Size = 1) := by
      constructor
      · intro h
        have h1 : byteLen (r :: rest) = 1 := by omega
        rw [hbl] at h1
        have h2 : byteLen rest = 0 := by omega
        exact ⟨byteLen_eq_zero.mp h2, by omega⟩
      · rintro ⟨h1, h2⟩
        subst h1
        rw [hb0] at hbl
        omega
    by_cases hvr : isValidProtoFieldChar r = true
    · -- valid character: emitted unchanged, the trim branch cannot fire
      have hsb : sanitizeBody lw (r :: rest) = r :: sanitizeBody r rest := by
        rw [sanitizeBody]
        simp [hvr]
      simp only [sanLoop]
      rw [sanStep_valid lw acc hvr]
      dsimp only
      split
      · next h =>
        rw [hvr] at h
        simp at h
      · next h =>
        clear h
        rw [hsplit, ih (i + r.utf8Size) r (acc ++ [r]) (List.getLast?_concat acc)]
        rw [hsb, List.append_cons acc r (sanitizeBody r rest)]
        cases rest with
        | nil => simp [lastCharTrim, sanitizeBody, hvr]
        | cons r2 rest2 => rw [lastCharTrim_cons_cons]
    · -- invalid character
      have hvr' : isValidProtoFieldChar r = false := by
        revert hvr; cases isValidProtoFieldChar r <;> simp
      have hnotrim : ¬(rest = [] ∧ r.utf8Size = 1) →
          lastCharTrim (r :: rest) = lastCharTrim rest ∨
            (rest = [] ∧ lastCharTrim (r :: rest) = false) := by
        intro hne
        cases hre : rest with
        | nil =>
          right
          refine ⟨rfl, ?_⟩
          have hs1 : r.utf8Size ≠ 1 := fun hc => hne ⟨hre, hc⟩
          simp [lastCharTrim, hvr', hs1]
        | cons r2 rest2 =>
          left
          exact lastCharTrim_cons_cons r r2 rest2
      by_cases hlw : lw = '_'
      · subst hlw
        have hsb : sanitizeBody '_' (r :: rest) = sanitizeBody '_' rest := by
          rw [sanitizeBody]
          simp [hvr']
        simp only [sanLoop]
        rw [sanStep_invalid_us acc hvr']
        dsimp only
        split
        · next h =>
          simp only [Bool.and_eq_true, decide_eq_true_eq] at h
          obtain ⟨⟨hi, _⟩, _⟩ := h
          obtain ⟨hre, hs1⟩ := hcond.mp hi
          subst hre
          have htrim : lastCharTrim [r] = true := by
            simp [lastCharTrim, hvr', hs1]
          rw [htrim, if_pos rfl]
          have hsb1 : sanitizeBody '_' [r] = [] := by
            simp [sanitizeBody, hvr']
          rw [hsb1, List.append_nil]
        · next h =>
          have hne : ¬(rest = [] ∧ r.utf8Size = 1) := by
            intro hc
            apply h
            have hi := hcond.mpr hc
            simp [← hi, hvr']
          rw [hsplit, ih (i + r.utf8Size) '_' acc hacc]
          rw [hsb]
          rcases hnotrim hne with heq | ⟨hre, hfa⟩
          · rw [heq]
          · subst hre
            rw [hfa]
            have h2 : lastCharTrim ([] : List Char) = false := by
              simp [lastCharTrim]
            rw [h2]
      · have hsb : sanitizeBody lw (r :: rest) = '_' :: sanitizeBody '_' rest := by
          rw [sanitizeBody]
          simp [hvr', hlw]
        simp only [sanLoop]
        rw [sanStep_invalid_ne acc hvr' hlw]
        dsimp only
        split
        · next h =>
          simp only [Bool.and_eq_true, decide_eq_true_eq] at h
          obtain ⟨⟨hi, _⟩, _⟩ := h
          obtain ⟨hre, hs1⟩ := hcond.mp hi
          subst hre
          rw [if_pos (List.getLast?_concat acc), List.dropLast_concat]
          have htrim : lastCharTrim [r] = true := by
            simp [lastCharTrim, hvr', hs1]
          rw [htrim, if_pos rfl]
          have hsb1 : sanitizeBody lw [r] = ['_'] := by
            simp [sanitizeBody, hvr', hlw]
          rw [hsb1, List.dropLast_concat]
        · next h =>
          have hne : ¬(rest = [] ∧ r.utf8Size = 1) := by
            intro hc
            apply h
            have hi := hcond.mpr hc
            simp [← hi, hvr']
          rw [hsplit, ih (i + r.utf8Size) '_' (acc ++ ['_'])
            (List.getLast?_concat acc)]
          rw [hsb, List.append_cons acc '_' (sanitizeBody '_' rest)]
          rcases hnotrim hne with heq | ⟨hre, hfa⟩
          · rw [heq]
          · subst hre
            rw [hfa]
            have h2 : lastCharTrim ([] : List Char) = false := by
              simp [lastCharTrim]
            rw [h2]

/-- The last element of a list is a member. -/
theorem mem_of_getLastQ {l : List Char} {c : Char}
    (h : l.getLast? = some c) : c ∈ l := by
  induction l with
  | nil => exact Option.noConfusion h
  | cons a rest ih =>
    cases rest with
    | nil =>
      simp only [List.getLast?_singleton, Option.some.injEq] at h
      simp [h]
    | cons b l2 =>
      rw [List.getLast?_cons_cons] at h
      exact List.mem_cons_of_mem a (ih h)

/-- Unpack a positive `lastCharTrim`. -/
theorem lastCharTrim_true {l : List Char} (h : lastCharTrim l = true) :
    ∃ c, l.getLast? = some c ∧ isValidProtoFieldChar c = false ∧
      c.utf8Size = 1 := by
  unfold lastCharTrim at h
  cases hg : l.getLast? with
  | none => rw [hg] at h; exact Bool.noConfusion h
  | some c =>
    rw [hg] at h
    simp only [Bool.and_eq_true, Bool.not_eq_true', decide_eq_true_eq] at h
    exact ⟨c, rfl, h.1, h.2⟩

/-- Every character emitted by `sanitizeBody` is a valid proto field
character. -/
theorem sanitizeBody_mem_valid {l : List Char} : ∀ (p c : Char),
    c ∈ sanitizeBody p l → isValidProtoFieldChar c = true := by
  induction l with
  | nil => intro p c h; exact absurd h (List.not_mem_nil c)
  | cons a rest ih =>
    intro p c h
    rw [sanitizeBody] at h
    by_cases hv : isValidProtoFieldChar a = true
    · rw [if_pos hv] at h
      rcases List.mem_cons.mp h with rfl | hmem
      · exact hv
      · exact ih a c hmem
    · rw [if_neg hv] at h
      by_cases hp : p = '_'
      · rw [if_pos hp] at h
        exact ih p c h
      · rw [if_neg hp] at h
        rcases List.mem_cons.mp h with rfl | hmem
        · decide
        · exact ih '_' c hmem

/-- On an all-valid input `sanitizeBody` is the identity. -/
theorem sanitizeBody_all_valid {l : List Char}
    (h : ∀ c ∈ l, isValidProtoFieldChar c = true) :
    ∀ p, sanitizeBody p l = l := by
  induction l with
  | nil => intro p; rfl
  | cons a rest ih =>
    intro p
    rw [sanitizeBody, if_pos (h a (by simp))]
    rw [ih fun c hc => h c (List.mem_cons_of_mem a hc)]

/-- An all-valid input never triggers the trailing trim. -/
theorem lastCharTrim_all_valid {l : List Char}
    (h : ∀ c ∈ l, isValidProtoFieldChar c = true) :
    lastCharTrim l = false := by
  cases ht : lastCharTrim l with
  | false => rfl
  | true =>
    obtain ⟨c, hg, hcv, _⟩ := lastCharTrim_true ht
    rw [h c (mem_of_getLastQ hg)] at hcv
    exact Bool.noConfusion hcv

/-- When the input ends in an invalid character, `sanitizeBody` is empty
(possible only when the previous character was an underscore) or ends in
an underscore. -/
theorem sanitizeBody_getLast {l : List Char} {c : Char}
    (hlast : l.getLast? = some c) (hinv : isValidProtoFieldChar c = false) :
    ∀ p, (sanitizeBody p l = [] ∧ p = '_') ∨
      (sanitizeBody p l).getLast? = some '_' := by
  induction l with
  | nil => exact absurd hlast (by simp)
  | cons a rest ih =>
    intro p
    cases hre : rest with
    | nil =>
      subst hre
      simp only [List.getLast?_singleton, Option.some.injEq] at hlast
      subst hlast
      rw [sanitizeBody, if_neg (by simp [hinv])]
      by_cases hp : p = '_'
      · rw [if_pos hp]
        exact Or.inl ⟨rfl, hp⟩
      · rw [if_neg hp]
        exact Or.inr rfl
    | cons b l2 =>
      subst hre
      have hlast' : (b :: l2).getLast? = some c := by
        rw [List.getLast?_cons_cons] at hlast
        exact hlast
      rw [sanitizeBody]
      by_cases hv : isValidProtoFieldChar a = true
      · rw [if_pos hv]
        rcases ih hlast' a with ⟨hempty, hau⟩ | hend
        · subst hau
          rw [hempty]
          exact Or.inr rfl
        · right
          cases hsb : sanitizeBody a (b :: l2) with
          | nil => rw [hsb] at hend; exact Option.noConfusion hend
          | cons x xs =>
            rw [hsb] at hend
            rw [List.getLast?_cons_cons]
            exact hend
      · rw [if_neg hv]
        by_cases hp : p = '_'
        · rw [if_pos hp]
          rcases ih hlast' p with ⟨hempty, _⟩ | hend
          · exact Or.inl ⟨hempty, hp⟩
          · exact Or.inr hend
        · rw [if_neg hp]
          rcases ih hlast' '_' with ⟨hempty, _⟩ | hend
          · rw [hempty]
            exact Or.inr rfl
          · right
            cases hsb : sanitizeBody '_' (b :: l2) with
            | nil => rw [hsb] at hend; exact Option.noConfusion hend
            | cons x xs =>
              rw [hsb] at hend
              rw [List.getLast?_cons_cons]
              exact hend

/-- Core agreement between `SanitizeFieldName` and the reference
`sanitizeSpec`: both fail together, and on success return the same
sanitized name. -/
theorem sanitize_toOption_eq (name : String) :
    (SanitizeFieldName name).toOption = (sanitizeSpec name).toOption := by
  simp only [SanitizeFieldName, sanitizeSpec]
  cases hcs : name.toList with
  | nil => rfl
  | cons c0 rest =>
    dsimp only
    by_cases hl : isAsciiLetter c0 = true
    · rw [if_pos hl, if_pos hl]
      have hv0 := letter_isValid hl
      have hne0 := letter_ne_underscore hl
      have htot : byteLen (c0 :: rest) = (0 + c0.utf8Size) + byteLen rest := by
        rw [byteLen_cons]
        omega
      have hstep : sanLoop (c0 :: rest) 0 (byteLen (c0 :: rest))
          (Char.ofNat 0) [] =
          sanLoop rest (0 + c0.utf8Size) (byteLen (c0 :: rest)) c0 [c0] := by
        simp only [sanLoop]
        rw [sanStep_valid _ _ hv0]
        dsimp only
        split
        · next h =>
          rw [hv0] at h
          simp at h
        · rfl
      have hout : sanLoop (c0 :: rest) 0 (byteLen (c0 :: rest))
          (Char.ofNat 0) [] =
          (if lastCharTrim rest = true
           then ([c0] ++ sanitizeBody c0 rest).dropLast
           else [c0] ++ sanitizeBody c0 rest) := by
        rw [hstep, htot, sanLoop_eq rest (0 + c0.utf8Size) c0 [c0] rfl]
      have hb : sanitizeBody (Char.ofNat 0) (c0 :: rest) =
          c0 :: sanitizeBody c0 rest := by
        rw [sanitizeBody]
        simp [hv0]
      have hct : lastCharTrim (c0 :: rest) = lastCharTrim rest := by
        cases rest with
        | nil => simp [lastCharTrim, hv0]
        | cons a l => exact lastCharTrim_cons_cons c0 a l
      have hbyte : (c0 :: rest).foldl (fun n c => n + c.utf8Size) 0 =
          byteLen (c0 :: rest) := rfl
      rw [hbyte, hout, hb, hct]
      cases htr : lastCharTrim rest with
      | false =>
        rw [if_neg (by simp), if_neg (by simp)]
        rfl
      | true =>
        rw [if_pos rfl, if_pos rfl]
        obtain ⟨c, hg, hcv, _⟩ := lastCharTrim_true htr
        have hend := sanitizeBody_getLast hg hcv c0
        rcases hend with ⟨_, hcu⟩ | hend
        · exact absurd hcu hne0
        · have hne : sanitizeBody c0 rest ≠ [] := by
            intro hc
            rw [hc] at hend
            exact Option.noConfusion hend
          have hdl : (c0 :: sanitizeBody c0 rest).dropLast =
              c0 :: (sanitizeBody c0 rest).dropLast :=
            List.dropLast_cons_of_ne_nil hne
          have hnonempty : (([c0] ++ sanitizeBody c0 rest).dropLast).isEmpty
              = false := by
            simp only [List.singleton_append, hdl]
            rfl
          rw [hnonempty]
          rfl
    · rw [if_neg hl, if_neg hl]
      split_ifs <;> rfl

/-- A string whose characters are all valid and whose first character is
an ASCII letter sanitizes to itself. -/
theorem sanitize_of_valid (s : String) (c0 : Char) (t : List Char)
    (hsl : s.toList = c0 :: t) (hl : isAsciiLetter c0 = true)
    (hall : ∀ c ∈ s.toList, isValidProtoFieldChar c = true) :
    SanitizeFieldName s = .ok s := by
  have hspec : sanitizeSpec s = .ok s := by
    rw [sanitizeSpec, hsl]
    dsimp only
    rw [if_pos hl]
    rw [hsl] at hall
    rw [sanitizeBody_all_valid hall (Char.ofNat 0)]
    rw [lastCharTrim_all_valid hall]
    rw [if_neg Bool.false_ne_true]
    rw [← hsl]
    rfl
  have hto := sanitize_toOption_eq s
  rw [hspec] at hto
  cases hx : SanitizeFieldName s with
  | error e => rw [hx] at hto; exact Option.noConfusion hto
  | ok v =>
    rw [hx] at hto
    simp only [Except.toOption, Option.some.injEq] at hto
    rw [hto]

/-- C8 (counterexample to the claim as stated): on `-abc` the code
errors although the first character is neither a digit nor an underscore
and valid characters remain, and on `a¢` (the final character a
multi-byte invalid rune) the trailing synthesized underscore is not
trimmed. -/
theorem claim8_counterexample :
    SanitizeFieldName "-abc" = .error "field name must start with a letter" ∧
    ('-'.isDigit = false) ∧ ('-' ≠ '_') ∧
    ("-abc".toList.filter isValidProtoFieldChar = ['a', 'b', 'c']) ∧
    SanitizeFieldName "a¢" = .ok "a_" :=
  ⟨rfl, rfl, by decide, rfl, rfl⟩

/-- C8 (amended): `SanitizeFieldName` agrees with the reference
`sanitizeSpec` — every invalid character becomes a single underscore with
consecutive replacements collapsed, the trailing synthesized underscore
is trimmed exactly when the final character is an invalid single-byte
character, and an error is returned if and only if the input is empty or
its first character is not an ASCII letter. -/
theorem claim8_amended_sanitize (name : String) :
    (SanitizeFieldName name).toOption = (sanitizeSpec name).toOption ∧
    ((SanitizeFieldName name).toOption = none ↔
      (name.toList = [] ∨ isAsciiLetter name.toList.headI = false)) := by
  refine ⟨sanitize_toOption_eq name, ?_⟩
  rw [sanitize_toOption_eq name]
  rw [sanitizeSpec]
  cases hcs : name.toList with
  | nil => simp [Except.toOption]
  | cons c0 rest =>
    dsimp only
    by_cases hl : isAsciiLetter c0 = true
    · rw [if_pos hl]
      simp [Except.toOption, hl]
    · rw [if_neg hl]
      have hl' : isAsciiLetter c0 = false := by
        revert hl; cases isAsciiLetter c0 <;> simp
      simp [Except.toOption, hl']

/-- C10: a successful sanitization returns a name that starts with an
ASCII letter, contains only ASCII letters, digits and underscores, and is
a fixed point: sanitizing it again succeeds and returns it unchanged. -/
theorem claim10_sanitize_idempotent (name s : String)
    (h : SanitizeFieldName name = .ok s) :
    (∃ c t, s.toList = c :: t ∧ isAsciiLetter c = true) ∧
    (∀ c ∈ s.toList, isValidProtoFieldChar c = true) ∧
    SanitizeFieldName s = .ok s := by
  have hopt : (sanitizeSpec name).toOption = some s := by
    rw [← sanitize_toOption_eq, h]
    rfl
  have hspec : sanitizeSpec name = .ok s := by
    cases hx : sanitizeSpec name with
    | error e => rw [hx] at hopt; exact Option.noConfusion hopt
    | ok v =>
      rw [hx] at hopt
      simp only [Except.toOption, Option.some.injEq] at hopt
      rw [hopt]
  rw [sanitizeSpec] at hspec
  cases hcs : name.toList with
  | nil => rw [hcs] at hspec; exact Except.noConfusion hspec
  | cons c0 rest =>
    rw [hcs] at hspec
    dsimp only at hspec
    by_cases hl : isAsciiLetter c0 = true
    case neg => rw [if_neg hl] at hspec; exact Except.noConfusion hspec
    case pos =>
    rw [if_pos hl] at hspec
    simp only [Except.ok.injEq] at hspec
    have hv0 := letter_isValid hl
    have hne0 := letter_ne_underscore hl
    have hb : sanitizeBody (Char.ofNat 0) (c0 :: rest) =
        c0 :: sanitizeBody c0 rest := by
      rw [sanitizeBody]
      simp [hv0]
    have hct : lastCharTrim (c0 :: rest) = lastCharTrim rest := by
      cases rest with
      | nil => simp [lastCharTrim, hv0]
      | cons a l => exact lastCharTrim_cons_cons c0 a l
    rw [hb, hct] at hspec
    have hsl : s.toList =
        (if lastCharTrim rest = true
         then (c0 :: sanitizeBody c0 rest).dropLast
         else c0 :: sanitizeBody c0 rest) := by
      rw [← hspec]
      rfl
    cases htr : lastCharTrim rest with
    | false =>
      rw [htr, if_neg Bool.false_ne_true] at hsl
      have hallmem : ∀ c ∈ s.toList, isValidProtoFieldChar c = true := by
        intro c hc
        rw [hsl] at hc
        rcases List.mem_cons.mp hc with rfl | hmem
        · exact hv0
        · exact sanitizeBody_mem_valid c0 c hmem
      exact ⟨⟨c0, _, hsl, hl⟩, hallmem,
        sanitize_of_valid s c0 _ hsl hl hallmem⟩
    | true =>
      rw [htr, if_pos rfl] at hsl
      obtain ⟨c, hg, hcv, _⟩ := lastCharTrim_true htr
      have hend := sanitizeBody_getLast hg hcv c0
      rcases hend with ⟨_, hcu⟩ | hend
      · exact absurd hcu hne0
      · have hne : sanitizeBody c0 rest ≠ [] := by
          intro hc
          rw [hc] at hend
          exact Option.noConfusion hend
        rw [List.dropLast_cons_of_ne_nil hne] at hsl
        have hallmem : ∀ c ∈ s.toList, isValidProtoFieldChar c = true := by
          intro c hc
          rw [hsl] at hc
          rcases List.mem_cons.mp hc with rfl | hmem
          · exact hv0
          · exact sanitizeBody_mem_valid c0 c
              (List.dropLast_subset (sanitizeBody c0 rest) hmem)
        exact ⟨⟨c0, _, hsl, hl⟩, hallmem,
          sanitize_of_valid s c0 _ hsl hl hallmem⟩

/-- Witness for C10: `a-b` sanitizes to `a_b`, and `a_b` is a fixed
point of sanitization. -/
theorem claim10_witness : SanitizeFieldName "a_b" = .ok "a_b" :=
  (claim10_sanitize_idempotent "a-b" "a_b" rfl).2.2

/-! ## C1: classification closure -/

/-- Membership after one closure scan, with a generalized accumulator. -/
theorem mem_closureStep_aux (m : Finset String) :
    ∀ (edges : List (String × String)) (acc : Finset String) (s : String),
      (s ∈ edges.foldl
        (fun acc e => if e.2 ∈ m then insert e.1 acc else acc) acc) ↔
        (s ∈ acc ∨ ∃ t, (s, t) ∈ edges ∧ t ∈ m) := by
  intro edges
  induction edges with
  | nil => simp
  | cons e rest ih =>
    intro acc s
    rw [List.foldl_cons, ih]
    by_cases he : e.2 ∈ m
    · rw [if_pos he]
      constructor
      · rintro (h | ⟨t, ht, htm⟩)
        · rcases Finset.mem_insert.mp h with rfl | hacc
          · exact Or.inr ⟨e.2, by simp, he⟩
          · exact Or.inl hacc
        · exact Or.inr ⟨t, List.mem_cons_of_mem e ht, htm⟩
      · rintro (h | ⟨t, ht, htm⟩)
        · exact Or.inl (Finset.mem_insert_of_mem h)
        · rcases List.mem_cons.mp ht with heq | hmem
          · left
            rw [← heq]
            exact Finset.mem_insert_self s acc
          · exact Or.inr ⟨t, hmem, htm⟩
    · rw [if_neg he]
      constructor
      · rintro (h | ⟨t, ht, htm⟩)
        · exact Or.inl h
        · exact Or.inr ⟨t, List.mem_cons_of_mem e ht, htm⟩
      · rintro (h | ⟨t, ht, htm⟩)
        · exact Or.inl h
        · rcases List.mem_cons.mp ht with heq | hmem
          · exact absurd (show e.2 ∈ m by rw [← heq] at he ⊢; exact htm) he
          · exact Or.inr ⟨t, hmem, htm⟩

/-- One closure scan marks exactly the old marks plus the sources of
edges into the old marks. -/
theorem mem_closureStep (edges : List (String × String)) (m : Finset String)
    (s : String) :
    s ∈ closureStep edges m ↔ (s ∈ m ∨ ∃ t, (s, t) ∈ edges ∧ t ∈ m) :=
  mem_closureStep_aux m edges m s

/-- A scan never unmarks. -/
theorem subset_closureStep (edges : List (String × String))
    (m : Finset String) : m ⊆ closureStep edges m :=
  fun s hs => (mem_closureStep edges m s).mpr (Or.inl hs)

/-- A scan only adds edge sources. -/
theorem closureStep_subset (edges : List (String × String))
    (m : Finset String) :
    closureStep edges m ⊆ m ∪ (edges.map Prod.fst).toFinset := by
  intro s hs
  rcases (mem_closureStep edges m s).mp hs with h | ⟨t, ht, _⟩
  · exact Finset.mem_union_left _ h
  · refine Finset.mem_union_right _ ?_
    rw [List.mem_toFinset]
    exact List.mem_map.mpr ⟨(s, t), ht, rfl⟩

/-- Every iterate stays inside the universe of seeds and edge sources. -/
theorem iterate_closureStep_subset (edges : List (String × String))
    (m0 : Finset String) :
    ∀ k, (closureStep edges)^[k] m0 ⊆
      m0 ∪ (edges.map Prod.fst).toFinset := by
  intro k
  induction k with
  | zero => exact Finset.subset_union_left
  | succ k ih =>
    rw [Function.iterate_succ_apply']
    intro s hs
    rcases Finset.mem_union.mp
        (closureStep_subset edges ((closureStep edges)^[k] m0) hs) with h | h
    · exact ih h
    · exact Finset.mem_union_right _ h

/-- The iterates are monotone. -/
theorem iterate_closureStep_mono (edges : List (String × String))
    (m0 : Finset String) {j k : Nat} (h : j ≤ k) :
    (closureStep edges)^[j] m0 ⊆ (closureStep edges)^[k] m0 := by
  induction k with
  | zero =>
    have : j = 0 := Nat.le_zero.mp h
    subst this
    exact Finset.Subset.refl _
  | succ k ih =>
    rcases Nat.eq_or_lt_of_le h with h' | h'
    · subst h'
      exact Finset.Subset.refl _
    · rw [Function.iterate_succ_apply']
      exact Finset.Subset.trans (ih (Nat.lt_succ_iff.mp h'))
        (subset_closureStep _ _)

/-- A fixed point of the scan stays fixed under iteration. -/
theorem iterate_fixed (edges : List (String × String)) (m : Finset String)
    (hfix : closureStep edges m = m) :
    ∀ j, (closureStep edges)^[j] m = m := by
  intro j
  induction j with
  | zero => rfl
  | succ j ih => rw [Function.iterate_succ_apply', ih, hfix]

/-- The computed closure is a fixed point of the scan. -/
theorem closureFix_isFixpoint (g : DependencyGraph) :
    closureStep g.edges (closureFix g) = closureFix g := by
  set srcs := (g.edges.map Prod.fst).toFinset with hsrc
  set U := closureUniverse g with hU
  have hUeq : U = g.marked ∪ srcs := rfl
  set N := U.card with hN
  set iter := fun k => (closureStep g.edges)^[k] g.marked with hiter
  have hcf : closureFix g = iter N := rfl
  have hsub : ∀ k, iter k ⊆ U := by
    intro k
    rw [hUeq]
    exact iterate_closureStep_subset g.edges g.marked k
  by_cases hex : ∃ k, k < N ∧ closureStep g.edges (iter k) = iter k
  · obtain ⟨k, hk, hfix⟩ := hex
    have hiterstep : ∀ j, iter (j + k) = iter k := by
      intro j
      have : iter (j + k) = (closureStep g.edges)^[j] (iter k) :=
        Function.iterate_add_apply _ j k _
      rw [this, iterate_fixed g.edges (iter k) hfix j]
    have hNk : iter N = iter k := by
      have : N = (N - k) + k := by omega
      rw [hcf] at *
      calc iter N = iter ((N - k) + k) := by rw [← this]
        _ = iter k := hiterstep (N - k)
    rw [hcf, hNk, hfix]
  · push_neg at hex
    have hcard : ∀ k, k ≤ N → k ≤ (iter k).card := by
      intro k
      induction k with
      | zero => intro _; exact Nat.zero_le _
      | succ k ih =>
        intro hk
        have hlt : k < N := by omega
        have hss : iter k ⊂ iter (k + 1) := by
          refine Finset.ssubset_iff_of_subset
            (iterate_closureStep_mono g.edges g.marked (Nat.le_succ k))
            |>.mpr ?_
          have hne : iter (k + 1) ≠ iter k := by
            have : iter (k + 1) = closureStep g.edges (iter k) :=
              Function.iterate_succ_apply' _ _ _
            rw [this]
            exact hex k hlt
          rcases Finset.exists_of_ssubset
              (lt_of_le_of_ne
                (iterate_closureStep_mono g.edges g.marked (Nat.le_succ k))
                (Ne.symm hne)) with ⟨x, hx1, hx2⟩
          exact ⟨x, hx1, hx2⟩
        have := Finset.card_lt_card hss
        have := ih (by omega)
        omega
    have hfull : iter N = U := by
      refine Finset.eq_of_subset_of_card_le (hsub N) ?_
      calc U.card = N := rfl
        _ ≤ (iter N).card := hcard N le_rfl
    have hstepU : closureStep g.edges U = U := by
      refine Finset.Subset.antisymm ?_ (subset_closureStep _ _)
      intro s hs
      rcases Finset.mem_union.mp (closureStep_subset g.edges U hs) with h | h
      · exact h
      · rw [hUeq]
        exact Finset.mem_union_right _ h
    rw [hcf, hfull, hstepU]

/-- Soundness: everything the iteration marks reaches a seed. -/
theorem iterate_sound (edges : List (String × String)) (m0 : Finset String) :
    ∀ (k : Nat) (s : String), s ∈ (closureStep edges)^[k] m0 →
      Reaches edges m0 s := by
  intro k
  induction k with
  | zero => intro s hs; exact Reaches.base hs
  | succ k ih =>
    intro s hs
    rw [Function.iterate_succ_apply'] at hs
    rcases (mem_closureStep edges _ s).mp hs with h | ⟨t, ht, htm⟩
    · exact ih s h
    · exact Reaches.step ht (ih t htm)

/-- Completeness: everything reaching a seed is marked by the closure. -/
theorem closureFix_complete (g : DependencyGraph) (s : String)
    (h : Reaches g.edges g.marked s) : s ∈ closureFix g := by
  induction h with
  | base hs =>
    exact iterate_closureStep_mono g.edges g.marked
      (Nat.zero_le (closureUniverse g).card) hs
  | step hedge _ ih =>
    have := (mem_closureStep g.edges (closureFix g) _).mpr
      (Or.inr ⟨_, hedge, ih⟩)
    rw [closureFix_isFixpoint g] at this
    exact this

/-- The closure marks exactly the schemas that reach a seed. -/
theorem closureFix_iff (g : DependencyGraph) (s : String) :
    s ∈ closureFix g ↔ Reaches g.edges g.marked s :=
  ⟨iterate_sound g.edges g.marked (closureUniverse g).card s,
   closureFix_complete g s⟩

/-- Registering schemas does not touch edges or marks, and appends the
names in order. -/
theorem foldl_AddSchema (names : List String) : ∀ g : DependencyGraph,
    (names.foldl (fun g n => g.AddSchema n) g) =
      ⟨g.nodes ++ names, g.edges, g.marked⟩ := by
  induction names with
  | nil => intro g; simp
  | cons n rest ih =>
    intro g
    rw [List.foldl_cons, ih]
    simp [DependencyGraph.AddSchema]

/-- Marking unions only grows the marked set, by the union name and its
variants. -/
theorem foldl_MarkUnion (unions : List (String × List String)) :
    ∀ g : DependencyGraph,
    (unions.foldl (fun g u => g.MarkUnion u.1 u.2) g) =
      ⟨g.nodes, g.edges,
       unions.foldl (fun m u => (insert u.1 m) ∪ u.2.toFinset) g.marked⟩ := by
  induction unions with
  | nil => intro g; simp
  | cons u rest ih =>
    intro g
    rw [List.foldl_cons, ih]
    simp [DependencyGraph.MarkUnion]

/-- Adding dependencies appends the edges in order. -/
theorem foldl_AddDependency (edges : List (String × String)) :
    ∀ g : DependencyGraph,
    (edges.foldl (fun g e => g.AddDependency e.1 e.2) g) =
      ⟨g.nodes, g.edges ++ edges, g.marked⟩ := by
  induction edges with
  | nil => intro g; simp
  | cons e rest ih =>
    intro g
    rw [List.foldl_cons, ih]
    simp [DependencyGraph.AddDependency]

/-- Membership in the seed set built by `MarkUnion`: the union names and
their variants. -/
theorem mem_markUnion_fold (unions : List (String × List String)) :
    ∀ (m : Finset String) (s : String),
      s ∈ unions.foldl (fun m u => (insert u.1 m) ∪ u.2.toFinset) m ↔
        (s ∈ m ∨ ∃ u ∈ unions, s = u.1 ∨ s ∈ u.2) := by
  induction unions with
  | nil => simp
  | cons u rest ih =>
    intro m s
    rw [List.foldl_cons, ih]
    constructor
    · rintro (h | ⟨v, hv, hsv⟩)
      · rcases Finset.mem_union.mp h with h1 | h1
        · rcases Finset.mem_insert.mp h1 with rfl | h2
          · exact Or.inr ⟨u, by simp, Or.inl rfl⟩
          · exact Or.inl h2
        · exact Or.inr ⟨u, by simp, Or.inr (List.mem_toFinset.mp h1)⟩
      · exact Or.inr ⟨v, List.mem_cons_of_mem u hv, hsv⟩
    · rintro (h | ⟨v, hv, hsv⟩)
      · exact Or.inl (Finset.mem_union_left _ (Finset.mem_insert_of_mem h))
      · rcases List.mem_cons.mp hv with rfl | hmem
        · left
          rcases hsv with rfl | hsv
          · exact Finset.mem_union_left _ (Finset.mem_insert_self _ _)
          · exact Finset.mem_union_right _ (List.mem_toFinset.mpr hsv)
        · exact Or.inr ⟨v, hmem, hsv⟩

/-- The graph built from the declarations has exactly the declared
nodes, edges and seed marks. -/
theorem graphOfDecls_eq (nodes : List String)
    (unions : List (String × List String)) (edges : List (String × String)) :
    graphOfDecls nodes unions edges =
      ⟨nodes, edges,
       unions.foldl (fun m u => (insert u.1 m) ∪ u.2.toFinset) ∅⟩ := by
  rw [graphOfDecls]
  rw [foldl_AddSchema nodes DependencyGraph.new]
  rw [foldl_MarkUnion unions]
  rw [foldl_AddDependency edges]
  simp [DependencyGraph.new]

/-- Reachability of a union seed coincides with the claim's
`RequiresNative` predicate. -/
theorem reaches_iff_requiresNative (unions : List (String × List String))
    (edges : List (String × String)) (s : String) :
    Reaches edges
        (unions.foldl (fun m u => (insert u.1 m) ∪ u.2.toFinset) ∅) s ↔
      RequiresNative unions edges s := by
  constructor
  · intro h
    induction h with
    | base hs =>
      rcases (mem_markUnion_fold unions ∅ _).mp hs with h0 | ⟨u, hu, hsu⟩
      · exact absurd h0 (Finset.not_mem_empty _)
      · rcases hsu with rfl | hsu
        · exact RequiresNative.declares hu
        · exact RequiresNative.variant hu hsu
    | step hedge _ ih => exact RequiresNative.depends hedge ih
  · intro h
    induction h with
    | declares hu =>
      exact Reaches.base ((mem_markUnion_fold unions ∅ _).mpr
        (Or.inr ⟨_, hu, Or.inl rfl⟩))
    | variant hu hsu =>
      exact Reaches.base ((mem_markUnion_fold unions ∅ _).mpr
        (Or.inr ⟨_, hu, Or.inr hsu⟩))
    | depends hedge _ ih => exact Reaches.step hedge ih

/-- C1: in the graph built from a document's declarations, a schema is
classified as requiring native-struct (Go) output iff it declares a
discriminated oneOf, is a variant of one, or has a (direct or
transitive) dependency path to such a schema; every other declared
schema is classified for structured-message (proto) output. -/
theorem claim1_native_struct_classification (nodes : List String)
    (unions : List (String × List String)) (edges : List (String × String))
    (s : String) (hs : s ∈ nodes) :
    (s ∈ (graphOfDecls nodes unions edges).ComputeTransitiveClosure.1 ↔
      RequiresNative unions edges s) ∧
    (s ∈ (graphOfDecls nodes unions edges).ComputeTransitiveClosure.2 ↔
      ¬ RequiresNative unions edges s) := by
  have hgo : ∀ x, x ∈ closureFix (graphOfDecls nodes unions edges) ↔
      RequiresNative unions edges x := by
    intro x
    rw [closureFix_iff]
    rw [graphOfDecls_eq]
    exact reaches_iff_requiresNative unions edges x
  constructor
  · exact hgo s
  · simp only [DependencyGraph.ComputeTransitiveClosure, Finset.mem_sdiff]
    rw [hgo s]
    have hn : (graphOfDecls nodes unions edges).nodes = nodes := by
      rw [graphOfDecls_eq]
    constructor
    · rintro ⟨_, h⟩
      exact h
    · intro h
      refine ⟨?_, h⟩
      rw [hn]
      exact List.mem_toFinset.mpr hs

/-- Witness for C1 at the Pet/Dog/Cat/Owner example of the spec: `Owner`
(which references the union `Pet` through a property) is classified for
native-struct output, and is not classified for proto output. -/
theorem claim1_witness :
    (("Owner" ∈
        (graphOfDecls petNodes petUnions petEdges).ComputeTransitiveClosure.1 ↔
      RequiresNative petUnions petEdges "Owner") ∧
    ("Owner" ∈
        (graphOfDecls petNodes petUnions petEdges).ComputeTransitiveClosure.2 ↔
      ¬ RequiresNative petUnions petEdges "Owner")) ∧
    RequiresNative petUnions petEdges "Owner" := by
  have h := claim1_native_struct_classification petNodes petUnions petEdges
    "Owner" (by decide)
  refine ⟨h, ?_⟩
  exact RequiresNative.depends (by decide)
    (@RequiresNative.declares petUnions petEdges "Pet" ["Dog", "Cat"] (by decide))

end OpenapiProto
